import Mathlib

/-!
# Merkle tree (`mktree.go`): shallow embedding and verified properties

The Go package builds a binary hash tree over a sequence of byte blocks
(`GenMkRootAndProof`), extracts a membership path from the tree
(`FindProofPath`) and recomputes a root from a block and a path
(`OfflineRootCalc`, `CheckMkData`).

Modelling conventions.

* A byte is a `Fin 256`; the content of a `[]byte` is a `List Byte`.
* A Go slice whose nil-ness is observable (the root returned by
  `GenMkRootAndProof`, the `[][]byte` path returned by `FindProofPath`) is an
  `Option`: `none` is the nil slice, `some xs` a non-nil slice with elements `xs`.
  `len`, `range`, `bytes.Equal` and `append` treat nil as the empty slice.
* A `*ProofTreeNode` is a `ProofTreeNode`: `nil` is the nil pointer, `node` a pointer
  to a struct.
* The hash primitive (`ripemd160`) is a parameter `H`; the streaming hasher hashes the
  concatenation of what was written to it.
* A run-time panic (index out of range, nil dereference) is an `Except.error`.
-/

namespace Merkletree

abbrev Byte := Fin 256

abbrev Bytes := List Byte

/-- Run-time panics of the Go program. -/
inductive Fault where
  | indexOutOfRange
  | nilDereference
  deriving DecidableEq, Repr

deriving instance DecidableEq for Except

/-- Tag constant `_LEFT_NODE`. -/
def _LEFT_NODE : Byte := 0x0

/-- Tag constant `_RIGHT_NODE`. -/
def _RIGHT_NODE : Byte := 0x1

/-- Source `hashBytes`: one write to the hasher, then `Sum(nil)`. -/
def hashBytes (H : Bytes → Bytes) (bys : Bytes) : Bytes :=
  H bys

/-- Source `hashTwoBytes`: two consecutive writes to the hasher, then `Sum(nil)`. -/
def hashTwoBytes (H : Bytes → Bytes) (left right : Bytes) : Bytes :=
  H (left ++ right)

/-- A `*ProofTreeNode`: the nil pointer, or a struct with `Hash`, `Left`, `Right`. -/
inductive ProofTreeNode where
  | nil : ProofTreeNode
  | node (Hash : Bytes) (Left Right : ProofTreeNode) : ProofTreeNode
  deriving DecidableEq, Repr

namespace ProofTreeNode

/-- Test `ptn == nil`. -/
def isNil : ProofTreeNode → Bool
  | nil => true
  | node _ _ _ => false

/-- Field access `ptn.Hash`; dereferencing nil panics. -/
def getHash : ProofTreeNode → Except Fault Bytes
  | nil => .error .nilDereference
  | node h _ _ => .ok h

/-- Source `IsLeaf`. -/
def IsLeaf : ProofTreeNode → Except Fault Bool
  | nil => .error .nilDereference
  | node _ l r => .ok (l.isNil && r.isNil)

/-- Source `DataEqual`: `bytes.Equal(ptn.Hash, data)`. -/
def DataEqual : ProofTreeNode → Bytes → Except Fault Bool
  | nil, _ => .error .nilDereference
  | node h _ _, data => .ok (decide (h = data))

end ProofTreeNode

open ProofTreeNode

/-- Elements of a possibly nil slice. -/
def elems {α : Type} (s : Option (List α)) : List α :=
  s.getD []

/-- Go `append(s, x)`: the result is never nil. -/
def goAppend {α : Type} (s : Option (List α)) (x : α) : Option (List α) :=
  some (elems s ++ [x])

/-- Source `findProofPath`. The calls `pathNode.IsLeaf()` and `pathNode.DataEqual(data)`
are written out on the matched node. -/
def findProofPath : ProofTreeNode → Option (List Bytes) → Bytes →
    Except Fault (Option (List Bytes) × Bool)
  | .nil, _, _ => .error .nilDereference
  | .node h l r, path, data =>
    if l.isNil && r.isNil then
      .ok (path, decide (h = data))
    else
      match findProofPath l path data with
      | .error e => .error e
      | .ok (lpath, lfind) =>
        if lfind then
          match r.getHash with
          | .error e => .error e
          | .ok rh => .ok (goAppend lpath (_RIGHT_NODE :: rh), lfind)
        else
          match findProofPath r path data with
          | .error e => .error e
          | .ok (rpath, rfind) =>
            if rfind then
              match l.getHash with
              | .error e => .error e
              | .ok lh => .ok (goAppend rpath (_LEFT_NODE :: lh), rfind)
            else
              .ok (path, false)

/-- Source `FindProofPath`. -/
def FindProofPath (H : Bytes → Bytes) (ptn : ProofTreeNode) (oriData : Bytes) :
    Except Fault (Option (List Bytes)) :=
  let path : Option (List Bytes) := none
  let hashData := hashBytes H oriData
  match findProofPath ptn path hashData with
  | .error e => .error e
  | .ok (ret, find) => if find then .ok ret else .ok none

/-- Source `GenMkRootAndProof`. -/
def GenMkRootAndProof (H : Bytes → Bytes) : List Bytes → Option Bytes × ProofTreeNode
  | [] => (none, .nil)
  | [d] =>
    let hash := hashBytes H d
    (some hash, .node hash .nil .nil)
  | d0 :: d1 :: ds =>
    let datas := d0 :: d1 :: ds
    let l := GenMkRootAndProof H (datas.take ((datas.length + 1) / 2))
    let r := GenMkRootAndProof H (datas.drop ((datas.length + 1) / 2))
    let hash := hashTwoBytes H (elems l.1) (elems r.1)
    (some hash, .node hash l.2 r.2)
termination_by datas => datas.length
decreasing_by
  all_goals simp_wf
  all_goals omega

/-- One iteration of the loop body of `OfflineRootCalc`: `switch path[i][0]`. -/
def rootStep (H : Bytes → Bytes) (tmpRoot : Bytes) : Bytes → Except Fault Bytes
  | [] => .error .indexOutOfRange
  | tag :: rest =>
    if tag = _LEFT_NODE then .ok (hashTwoBytes H rest tmpRoot)
    else if tag = _RIGHT_NODE then .ok (hashTwoBytes H tmpRoot rest)
    else .ok tmpRoot

/-- The loop `for i := range path` of `OfflineRootCalc`. -/
def rootLoop (H : Bytes → Bytes) : List Bytes → Bytes → Except Fault Bytes
  | [], tmpRoot => .ok tmpRoot
  | step :: rest, tmpRoot =>
    match rootStep H tmpRoot step with
    | .error e => .error e
    | .ok t => rootLoop H rest t

/-- Source `OfflineRootCalc`. -/
def OfflineRootCalc (H : Bytes → Bytes) (path : Option (List Bytes)) (oriData : Bytes) :
    Except Fault Bytes :=
  let hashData := hashBytes H oriData
  if (elems path).length = 0 then
    .ok hashData
  else
    rootLoop H (elems path) hashData

/-- Source `CheckMkData`. -/
def CheckMkData (H : Bytes → Bytes) (root : Option Bytes) (path : Option (List Bytes))
    (oriData : Bytes) : Except Fault Bool :=
  match OfflineRootCalc H path oriData with
  | .error e => .error e
  | .ok tmpRoot => .ok (decide (tmpRoot = elems root))

/-- A small stand-in hash with one-byte digests, used to evaluate the program on concrete
inputs. -/
def toyHash : Bytes → Bytes :=
  fun bs => [bs.foldl (fun acc c => acc * 31 + c + 7) 3]

/-- All nodes of a tree, root first, left subtree before right subtree. -/
def nodes : ProofTreeNode → List ProofTreeNode
  | .nil => []
  | .node h l r => .node h l r :: (nodes l ++ nodes r)

/-- Digests of the leaves (nodes with `IsLeaf`), read left to right. -/
def leafHashes : ProofTreeNode → List Bytes
  | .nil => []
  | .node h l r => if l.isNil && r.isNil then [h] else leafHashes l ++ leafHashes r

/-- Test helper `hashBytesEqual` of `mktree_test.go`. -/
def hashBytesEqual (H : Bytes → Bytes) (data1 data2 hash : Bytes) : Bool :=
  decide (hash = hashTwoBytes H data1 data2)

/-- Test helper `testCheckProofTree` of `mktree_test.go` (the error report is dropped). -/
def testCheckProofTree (H : Bytes → Bytes) : ProofTreeNode → Except Fault Bool
  | .nil => .error .nilDereference
  | .node h l r =>
    if l.isNil && r.isNil then .ok true
    else
      match l.getHash, r.getHash with
      | .ok lh, .ok rh =>
        if !hashBytesEqual H lh rh h then .ok false
        else
          match testCheckProofTree H l with
          | .error e => .error e
          | .ok lok => if !lok then .ok false else testCheckProofTree H r
      | _, _ => .error .nilDereference

/-- Shape of the trees `GenMkRootAndProof` returns: leaves have no child, every other node
has two children and carries the hash of the two child digests. -/
inductive Built (H : Bytes → Bytes) : ProofTreeNode → Prop where
  | leaf (h : Bytes) : Built H (.node h .nil .nil)
  | inner (lh rh : Bytes) (ll lr rl rr : ProofTreeNode) :
      Built H (.node lh ll lr) → Built H (.node rh rl rr) →
      Built H (.node (hashTwoBytes H lh rh) (.node lh ll lr) (.node rh rl rr))

/-- Direction of a proof step, as in the spec's data model. -/
inductive Direction where
  | siblingIsLeft
  | siblingIsRight
  deriving DecidableEq, Repr

/-- A proof step of the spec's data model: a direction and the sibling digest. -/
structure ProofStep where
  direction : Direction
  siblingDigest : Bytes
  deriving DecidableEq, Repr

/-- Reading of an encoded step: the first byte is the tag (0x0 sibling is left, otherwise
sibling is right), the rest is the sibling digest. -/
def decodeStep (step : Bytes) : ProofStep :=
  { direction := if step.head? = some 0x0 then .siblingIsLeft else .siblingIsRight
    siblingDigest := step.tail }

/-- Root reconstruction as the spec words it: start from the block hash and fold the steps
left to right, hashing the sibling digest on the side its direction names. -/
def reconstructRoot (H : Bytes → Bytes) (path : List ProofStep) (block : Bytes) : Bytes :=
  path.foldl
    (fun current s =>
      match s.direction with
      | .siblingIsLeft => hashTwoBytes H s.siblingDigest current
      | .siblingIsRight => hashTwoBytes H current s.siblingDigest)
    (hashBytes H block)

/-- A step carries a recognised direction tag: its first byte is 0x0 or 0x1. -/
def knownTag (step : Bytes) : Bool :=
  match step with
  | [] => false
  | tag :: _ => decide (tag = 0x0) || decide (tag = 0x1)

/-- For a node with two children, the byte string `hashTwoBytes` hashes for it: the left
child digest followed by the right child digest. -/
def childDigests : ProofTreeNode → Option Bytes
  | .node _ (.node lh _ _) (.node rh _ _) => some (lh ++ rh)
  | _ => none

/-- The byte strings given to the hash primitive while `GenMkRootAndProof` builds the tree
of `S`: every block (by `hashBytes`) and, for every node with two children, the
concatenation of the child digests (by `hashTwoBytes`). -/
def hashedByBuild (H : Bytes → Bytes) (S : List Bytes) : List Bytes :=
  S ++ (nodes (GenMkRootAndProof H S).2).filterMap childDigests

/-- The byte strings given to the hash primitive by the loop of `OfflineRootCalc`, started
at the running digest `cur`. -/
def hashedByLoop (H : Bytes → Bytes) : List Bytes → Bytes → List Bytes
  | [], _ => []
  | [] :: _, _ => []
  | (tag :: d) :: rest, cur =>
    if tag = _LEFT_NODE then (d ++ cur) :: hashedByLoop H rest (hashTwoBytes H d cur)
    else if tag = _RIGHT_NODE then (cur ++ d) :: hashedByLoop H rest (hashTwoBytes H cur d)
    else hashedByLoop H rest cur

/-- The byte strings given to the hash primitive by `OfflineRootCalc(path, oriData)`: the
block, then the inputs of the loop. -/
def hashedByVerify (H : Bytes → Bytes) (path : Option (List Bytes)) (oriData : Bytes) :
    List Bytes :=
  oriData :: hashedByLoop H (elems path) (hashBytes H oriData)

/-- Height of a tree in edges: a leaf has height 0, a node with children one more than its
higher child. -/
def height : ProofTreeNode → ℕ
  | .nil => 0
  | .node _ l r => if l.isNil && r.isNil then 0 else 1 + max (height l) (height r)

/-- Proof path of the `k`-th leaf (from 0, left to right) as the spec describes a path:
from the leaf's sibling up to a child of the root, each step the direction tag followed by
the sibling digest. -/
def leafPath : ProofTreeNode → ℕ → List Bytes
  | .node _ (.node lh ll lr) (.node rh rl rr), k =>
    if k < (leafHashes (.node lh ll lr)).length then
      leafPath (.node lh ll lr) k ++ [(0x1 : Byte) :: rh]
    else
      leafPath (.node rh rl rr) (k - (leafHashes (.node lh ll lr)).length) ++
        [(0x0 : Byte) :: lh]
  | _, _ => []

/-- The step that names the immediate sibling of the `k`-th leaf (from 0, left to right):
tag 0x1 and the digest of the right sibling when the leaf is a left child, tag 0x0 and the
digest of the left sibling when it is a right child. A tree that is one leaf has none. -/
def leafSibling : ProofTreeNode → ℕ → Option Bytes
  | .node _ (.node lh ll lr) (.node rh rl rr), k =>
    if k < (leafHashes (.node lh ll lr)).length then
      if ll.isNil && lr.isNil then some ((0x1 : Byte) :: rh)
      else leafSibling (.node lh ll lr) k
    else
      if rl.isNil && rr.isNil then some ((0x0 : Byte) :: lh)
      else leafSibling (.node rh rl rr) (k - (leafHashes (.node lh ll lr)).length)
  | _, _ => none

/-- Depth of the `k`-th leaf (from 0, left to right): the number of edges between the root
and that leaf. -/
def leafDepth : ProofTreeNode → ℕ → ℕ
  | .node _ (.node lh ll lr) (.node rh rl rr), k =>
    if k < (leafHashes (.node lh ll lr)).length then
      1 + leafDepth (.node lh ll lr) k
    else
      1 + leafDepth (.node rh rl rr) (k - (leafHashes (.node lh ll lr)).length)
  | _, _ => 0

/-- For a node with two children, the pair of digests `hashTwoBytes` is applied to. -/
def childPair : ProofTreeNode → Option (Bytes × Bytes)
  | .node _ (.node lh _ _) (.node rh _ _) => some (lh, rh)
  | _ => none

/-- The pairs of digests given to `hashTwoBytes` while the tree `t` was built: one pair for
each node with two children. -/
def hashedPairs (t : ProofTreeNode) : List (Bytes × Bytes) :=
  (nodes t).filterMap childPair

/-- The sequence `S` with the blocks at positions `i` and `j` exchanged. -/
def swapBlocks (S : List Bytes) (i j : ℕ) : List Bytes :=
  (S.set i (S.getD j [])).set j (S.getD i [])

/-! ## Unfolding `GenMkRootAndProof` -/

theorem gen_nil (H : Bytes → Bytes) : GenMkRootAndProof H [] = (none, .nil) := by
  simp [GenMkRootAndProof]

theorem gen_single (H : Bytes → Bytes) (d : Bytes) :
    GenMkRootAndProof H [d] = (some (hashBytes H d), .node (hashBytes H d) .nil .nil) := by
  simp [GenMkRootAndProof]

theorem gen_split (H : Bytes → Bytes) (S : List Bytes) (hS : 2 ≤ S.length) :
    GenMkRootAndProof H S =
      (some (hashTwoBytes H (elems (GenMkRootAndProof H (S.take ((S.length + 1) / 2))).1)
          (elems (GenMkRootAndProof H (S.drop ((S.length + 1) / 2))).1)),
        .node (hashTwoBytes H (elems (GenMkRootAndProof H (S.take ((S.length + 1) / 2))).1)
          (elems (GenMkRootAndProof H (S.drop ((S.length + 1) / 2))).1))
          (GenMkRootAndProof H (S.take ((S.length + 1) / 2))).2
          (GenMkRootAndProof H (S.drop ((S.length + 1) / 2))).2) := by
  match S, hS with
  | d0 :: d1 :: ds, _ => rw [GenMkRootAndProof]

theorem take_half_ne_nil (S : List Bytes) (hS : 2 ≤ S.length) :
    S.take ((S.length + 1) / 2) ≠ [] := by
  intro h
  have := congrArg List.length h
  rw [List.length_take, List.length_nil] at this
  omega

theorem drop_half_ne_nil (S : List Bytes) (hS : 2 ≤ S.length) :
    S.drop ((S.length + 1) / 2) ≠ [] := by
  intro h
  have := congrArg List.length h
  rw [List.length_drop, List.length_nil] at this
  omega

/-- A non-empty input yields a non-nil root and a tree of the `Built` shape whose root node
carries the returned root. -/
theorem gen_built (H : Bytes → Bytes) (S : List Bytes) (hS : S ≠ []) :
    ∃ h l r, GenMkRootAndProof H S = (some h, .node h l r) ∧ Built H (.node h l r) := by
  induction S using GenMkRootAndProof.induct H with
  | case1 => exact absurd rfl hS
  | case2 d => exact ⟨_, _, _, gen_single H d, Built.leaf _⟩
  | case3 d0 d1 ds datas ihl ihr =>
    have h2 : 2 ≤ (d0 :: d1 :: ds).length := by simp
    obtain ⟨lh, ll, lr, hl, bl⟩ := ihl (take_half_ne_nil _ h2)
    obtain ⟨rh, rl, rr, hr, br⟩ := ihr (drop_half_ne_nil _ h2)
    refine ⟨_, _, _, gen_split H _ h2, ?_⟩
    simp only [datas] at hl hr
    rw [hl, hr]
    exact Built.inner _ _ _ _ _ _ bl br

/-- The leaves of the returned tree carry the hashes of the input blocks, in input order. -/
theorem gen_leafHashes (H : Bytes → Bytes) (S : List Bytes) :
    leafHashes (GenMkRootAndProof H S).2 = S.map (hashBytes H) := by
  induction S using GenMkRootAndProof.induct H with
  | case1 => simp [gen_nil, leafHashes]
  | case2 d => simp [gen_single, leafHashes, ProofTreeNode.isNil]
  | case3 d0 d1 ds datas ihl ihr =>
    have h2 : 2 ≤ (d0 :: d1 :: ds).length := by simp
    obtain ⟨lh, ll, lr, hl, -⟩ := gen_built H _ (take_half_ne_nil _ h2)
    rw [gen_split H _ h2]
    simp only [datas] at ihl ihr
    have hnil : (GenMkRootAndProof H
        (List.take (((d0 :: d1 :: ds).length + 1) / 2) (d0 :: d1 :: ds))).2.isNil = false := by
      rw [hl]; rfl
    simp only [leafHashes, hnil, Bool.false_and, Bool.false_eq_true, if_false]
    rw [ihl, ihr, ← List.map_append, List.take_append_drop]

/-! ## The verification loop -/

theorem rootLoop_append (H : Bytes → Bytes) (p q : List Bytes) (c : Bytes) :
    rootLoop H (p ++ q) c =
      match rootLoop H p c with
      | .error e => .error e
      | .ok t => rootLoop H q t := by
  induction p generalizing c with
  | nil => simp [rootLoop]
  | cons s p ih =>
    simp only [List.cons_append, rootLoop]
    cases rootStep H c s with
    | error e => rfl
    | ok t => exact ih t

theorem rootStep_right (H : Bytes → Bytes) (c d : Bytes) :
    rootStep H c (_RIGHT_NODE :: d) = .ok (hashTwoBytes H c d) := by
  simp [rootStep, _RIGHT_NODE, _LEFT_NODE]

theorem rootStep_left (H : Bytes → Bytes) (c d : Bytes) :
    rootStep H c (_LEFT_NODE :: d) = .ok (hashTwoBytes H d c) := by
  simp [rootStep]

/-! ## Path extraction on trees of the `Built` shape -/

theorem findProofPath_node (h : Bytes) (l r : ProofTreeNode) (path : Option (List Bytes))
    (data : Bytes) :
    findProofPath (.node h l r) path data =
      if l.isNil && r.isNil then
        .ok (path, decide (h = data))
      else
        match findProofPath l path data with
        | .error e => .error e
        | .ok (lpath, lfind) =>
          if lfind then
            match r.getHash with
            | .error e => .error e
            | .ok rh => .ok (goAppend lpath (_RIGHT_NODE :: rh), lfind)
          else
            match findProofPath r path data with
            | .error e => .error e
            | .ok (rpath, rfind) =>
              if rfind then
                match l.getHash with
                | .error e => .error e
                | .ok lh => .ok (goAppend rpath (_LEFT_NODE :: lh), rfind)
              else
                .ok (path, false) := by
  rw [findProofPath]

/-- On a `Built` tree the search started with the nil path never faults; it reports a find
exactly when the wanted digest is a leaf digest; a found path replays to the digest of the
root node and is nil only at a leaf; a failed search hands back the nil path. -/
theorem find_built (H : Bytes → Bytes) (data : Bytes) (t : ProofTreeNode) (ht : Built H t) :
    ∃ p, findProofPath t none data = .ok (p, decide (data ∈ leafHashes t)) ∧
      (data ∈ leafHashes t → (rootLoop H (elems p) data = t.getHash ∧
        (t.IsLeaf = .ok true → p = none) ∧
        (t.IsLeaf = .ok false → ∃ q step, p = some (q ++ [step])))) ∧
      (data ∉ leafHashes t → p = none) := by
  induction ht with
  | leaf h =>
    refine ⟨none, ?_, ?_, fun _ => rfl⟩
    · simp [findProofPath, leafHashes, ProofTreeNode.isNil, eq_comm]
    · intro hmem
      have : data = h := by simpa [leafHashes, ProofTreeNode.isNil] using hmem
      subst this
      simp [rootLoop, elems, ProofTreeNode.getHash, ProofTreeNode.IsLeaf,
        ProofTreeNode.isNil]
  | inner lh rh ll lr rl rr bl br ihl ihr =>
    obtain ⟨lp, hlf, hlin, hlout⟩ := ihl
    obtain ⟨rp, hrf, hrin, hrout⟩ := ihr
    have hleaves : leafHashes (.node (hashTwoBytes H lh rh) (.node lh ll lr) (.node rh rl rr))
        = leafHashes (.node lh ll lr) ++ leafHashes (.node rh rl rr) := by
      simp [leafHashes, ProofTreeNode.isNil]
    by_cases hL : data ∈ leafHashes (.node lh ll lr)
    · refine ⟨goAppend lp (_RIGHT_NODE :: rh), ?_, ?_, ?_⟩
      · rw [findProofPath]
        simp only [ProofTreeNode.isNil, Bool.false_and, Bool.false_eq_true, if_false, hlf]
        simp [hL, hleaves, ProofTreeNode.getHash]
      · intro _
        refine ⟨?_, ?_, fun _ => ⟨_, _, rfl⟩⟩
        · have h1 := (hlin hL).1
          simp only [goAppend, elems, Option.getD_some] at h1 ⊢
          rw [rootLoop_append, h1]
          simp [ProofTreeNode.getHash, rootLoop, rootStep_right]
        · simp [ProofTreeNode.IsLeaf, ProofTreeNode.isNil]
      · intro hnot
        exact absurd (by rw [hleaves]; exact List.mem_append_left _ hL) hnot
    · by_cases hR : data ∈ leafHashes (.node rh rl rr)
      · refine ⟨goAppend rp (_LEFT_NODE :: lh), ?_, ?_, ?_⟩
        · rw [findProofPath]
          simp only [ProofTreeNode.isNil, Bool.false_and, Bool.false_eq_true, if_false, hlf]
          simp [hL, hR, hrf, hleaves, ProofTreeNode.getHash]
        · intro _
          refine ⟨?_, ?_, fun _ => ⟨_, _, rfl⟩⟩
          · have h1 := (hrin hR).1
            simp only [goAppend, elems, Option.getD_some] at h1 ⊢
            rw [rootLoop_append, h1]
            simp [ProofTreeNode.getHash, rootLoop, rootStep_left]
          · simp [ProofTreeNode.IsLeaf, ProofTreeNode.isNil]
        · intro hnot
          exact absurd (by rw [hleaves]; exact List.mem_append_right _ hR) hnot
      · refine ⟨none, ?_, ?_, fun _ => rfl⟩
        · rw [findProofPath]
          simp only [ProofTreeNode.isNil, Bool.false_and, Bool.false_eq_true, if_false, hlf]
          simp [hL, hR, hrf, hleaves]
        · intro hmem
          rw [hleaves, List.mem_append] at hmem
          exact absurd hmem (by tauto)

theorem offline_eq_loop (H : Bytes → Bytes) (path : Option (List Bytes)) (b : Bytes) :
    OfflineRootCalc H path b = rootLoop H (elems path) (hashBytes H b) := by
  unfold OfflineRootCalc
  by_cases h : (elems path).length = 0
  · have h0 : elems path = [] := List.length_eq_zero.mp h
    simp [h0, rootLoop]
  · simp [h]

theorem ceil_half (n : ℕ) : ⌈(n : ℚ) / 2⌉₊ = (n + 1) / 2 := by
  rcases Nat.even_or_odd' n with ⟨k, rfl | rfl⟩
  · have h1 : ((2 * k : ℕ) : ℚ) / 2 = (k : ℚ) := by push_cast; ring
    rw [h1, Nat.ceil_natCast]; omega
  · have h2 : (2 * k + 1 + 1) / 2 = k + 1 := by omega
    rw [h2, Nat.ceil_eq_iff (by omega)]
    constructor
    · push_cast
      have : (0 : ℚ) ≤ k := Nat.cast_nonneg k
      linarith
    · push_cast
      have : (0 : ℚ) ≤ k := Nat.cast_nonneg k
      linarith

theorem floor_half (n : ℕ) : ⌊(n : ℚ) / 2⌋₊ = n / 2 := by
  have := Nat.floor_div_eq_div (α := ℚ) n 2
  simpa using this

theorem built_nodes (H : Bytes → Bytes) (t : ProofTreeNode) (ht : Built H t) :
    ∀ h l r, ProofTreeNode.node h l r ∈ nodes t →
      (ProofTreeNode.node h l r).IsLeaf = .ok false →
      ∃ lh rh, l.getHash = .ok lh ∧ r.getHash = .ok rh ∧ h = hashTwoBytes H lh rh := by
  induction ht with
  | leaf h0 =>
    intro h l r hmem hleaf
    simp only [nodes, List.append_nil, List.mem_singleton] at hmem
    rw [hmem] at hleaf
    simp [ProofTreeNode.IsLeaf, ProofTreeNode.isNil] at hleaf
  | inner lh rh ll lr rl rr bl br ihl ihr =>
    intro h l r hmem hleaf
    rw [nodes, List.mem_cons, List.mem_append] at hmem
    rcases hmem with heq | hl | hr
    · injection heq with e1 e2 e3
      subst e1 e2 e3
      exact ⟨lh, rh, rfl, rfl, rfl⟩
    · exact ihl h l r hl hleaf
    · exact ihr h l r hr hleaf

theorem built_testCheck (H : Bytes → Bytes) (t : ProofTreeNode) (ht : Built H t) :
    testCheckProofTree H t = .ok true := by
  induction ht with
  | leaf h0 => simp [testCheckProofTree, ProofTreeNode.isNil]
  | inner lh rh ll lr rl rr bl br ihl ihr =>
    rw [testCheckProofTree]
    simp [ProofTreeNode.isNil, ProofTreeNode.getHash, hashBytesEqual, ihl, ihr]

/-! ## Claims -/

/-- C1: round trip. For every block `b` occurring in a sequence `S` (so `S` is non-empty),
with `(root, tree) = GenMkRootAndProof(S)`, `tree.FindProofPath(b)` returns a path without
faulting and `CheckMkData(root, path, b)` returns true. The hash `H` is arbitrary, and `S`
may be a single block or contain duplicates. -/
theorem roundtrip_check_of_find (H : Bytes → Bytes) (S : List Bytes) (b : Bytes)
    (hb : b ∈ S) :
    ∃ path, FindProofPath H (GenMkRootAndProof H S).2 b = .ok path ∧
      CheckMkData H (GenMkRootAndProof H S).1 path b = .ok true := by
  have hS : S ≠ [] := List.ne_nil_of_mem hb
  obtain ⟨h, l, r, hgen, hbuilt⟩ := gen_built H S hS
  have hmem : hashBytes H b ∈ leafHashes (GenMkRootAndProof H S).2 := by
    rw [gen_leafHashes]; exact List.mem_map_of_mem _ hb
  rw [hgen] at hmem ⊢
  obtain ⟨p, hfind, hin, -⟩ := find_built H (hashBytes H b) _ hbuilt
  refine ⟨p, ?_, ?_⟩
  · simp [FindProofPath, hfind, hmem]
  · simp only [CheckMkData, offline_eq_loop, (hin hmem).1, ProofTreeNode.getHash]
    simp [elems]

theorem roundtrip_check_of_find_witness :
    ∃ path, FindProofPath toyHash (GenMkRootAndProof toyHash [[1], [2], [1]]).2 [1] = .ok path ∧
      CheckMkData toyHash (GenMkRootAndProof toyHash [[1], [2], [1]]).1 path [1] = .ok true :=
  roundtrip_check_of_find toyHash [[1], [2], [1]] [1] (by decide)

/-- C3: split rule. For a sequence `S` of `n ≥ 2` blocks, the left part is the first
`⌈n/2⌉` blocks, the right part the remaining `⌊n/2⌋` blocks, and `GenMkRootAndProof(S)`
returns the node whose `Left` and `Right` are the trees built from the two parts and whose
digest, which is also the returned root, is `hashTwoBytes` of the two roots. -/
theorem split_rule_ceil_half (H : Bytes → Bytes) (S : List Bytes) (hS : 2 ≤ S.length) :
    (S.take ⌈(S.length : ℚ) / 2⌉₊).length = ⌈(S.length : ℚ) / 2⌉₊ ∧
    (S.drop ⌈(S.length : ℚ) / 2⌉₊).length = ⌊(S.length : ℚ) / 2⌋₊ ∧
    S.take ⌈(S.length : ℚ) / 2⌉₊ ++ S.drop ⌈(S.length : ℚ) / 2⌉₊ = S ∧
    GenMkRootAndProof H S =
      (some (hashTwoBytes H
          (elems (GenMkRootAndProof H (S.take ⌈(S.length : ℚ) / 2⌉₊)).1)
          (elems (GenMkRootAndProof H (S.drop ⌈(S.length : ℚ) / 2⌉₊)).1)),
        .node (hashTwoBytes H
          (elems (GenMkRootAndProof H (S.take ⌈(S.length : ℚ) / 2⌉₊)).1)
          (elems (GenMkRootAndProof H (S.drop ⌈(S.length : ℚ) / 2⌉₊)).1))
          (GenMkRootAndProof H (S.take ⌈(S.length : ℚ) / 2⌉₊)).2
          (GenMkRootAndProof H (S.drop ⌈(S.length : ℚ) / 2⌉₊)).2) := by
  rw [ceil_half, floor_half]
  refine ⟨?_, ?_, List.take_append_drop _ _, gen_split H S hS⟩
  · rw [List.length_take]; omega
  · rw [List.length_drop]; omega

theorem split_rule_ceil_half_witness :
    (GenMkRootAndProof toyHash [[1], [2], [3]]).2 =
      .node (hashTwoBytes toyHash
          (elems (GenMkRootAndProof toyHash [[1], [2]]).1)
          (elems (GenMkRootAndProof toyHash [[3]]).1))
        (GenMkRootAndProof toyHash [[1], [2]]).2 (GenMkRootAndProof toyHash [[3]]).2 := by
  have h := (split_rule_ceil_half toyHash [[1], [2], [3]] (by decide)).2.2.2
  have hc : ⌈(([[1], [2], [3]] : List Bytes).length : ℚ) / 2⌉₊ = 2 := by
    rw [ceil_half]; rfl
  rw [hc] at h
  simpa using congrArg Prod.snd h

/-- C4: tree digest invariant. For every non-empty sequence `S`, every node of the tree
returned by `GenMkRootAndProof(S)` that is not a leaf has two children and its `Hash` is
`hashTwoBytes(Left.Hash, Right.Hash)`; the recursive check `testCheckProofTree` of the test
suite accepts the tree. -/
theorem digest_invariant_all_nodes (H : Bytes → Bytes) (S : List Bytes) (hS : S ≠ []) :
    (∀ h l r, ProofTreeNode.node h l r ∈ nodes (GenMkRootAndProof H S).2 →
      (ProofTreeNode.node h l r).IsLeaf = .ok false →
      ∃ lh rh, l.getHash = .ok lh ∧ r.getHash = .ok rh ∧ h = hashTwoBytes H lh rh) ∧
    testCheckProofTree H (GenMkRootAndProof H S).2 = .ok true := by
  obtain ⟨h, l, r, hgen, hbuilt⟩ := gen_built H S hS
  rw [hgen]
  exact ⟨built_nodes H _ hbuilt, built_testCheck H _ hbuilt⟩

theorem digest_invariant_all_nodes_witness :
    testCheckProofTree toyHash (GenMkRootAndProof toyHash [[1], [2], [3]]).2 = .ok true :=
  (digest_invariant_all_nodes toyHash [[1], [2], [3]] (by decide)).2

theorem rootLoop_known (H : Bytes → Bytes) (steps : List Bytes)
    (hk : ∀ step ∈ steps, knownTag step = true) (c : Bytes) :
    rootLoop H steps c = .ok ((steps.map decodeStep).foldl
      (fun current s =>
        match s.direction with
        | .siblingIsLeft => hashTwoBytes H s.siblingDigest current
        | .siblingIsRight => hashTwoBytes H current s.siblingDigest) c) := by
  induction steps generalizing c with
  | nil => rfl
  | cons s rest ih =>
    have hs := hk s (List.mem_cons_self _ _)
    have hrest : ∀ step ∈ rest, knownTag step = true :=
      fun step hm => hk step (List.mem_cons_of_mem _ hm)
    cases s with
    | nil => simp [knownTag] at hs
    | cons tag d =>
      simp only [knownTag, Bool.or_eq_true, decide_eq_true_eq] at hs
      rcases hs with h0 | h1
      · subst h0
        have hstep := rootStep_left H c d
        rw [_LEFT_NODE] at hstep
        rw [rootLoop, hstep, List.map_cons, List.foldl_cons]
        simp only [decodeStep, List.head?_cons, if_true, List.tail_cons]
        exact ih hrest _
      · subst h1
        have hstep := rootStep_right H c d
        rw [_RIGHT_NODE] at hstep
        rw [rootLoop, hstep, List.map_cons, List.foldl_cons]
        have hne : (some (0x1 : Byte) = some 0x0) = False := by
          simp
        simp only [decodeStep, List.head?_cons, hne, if_false, List.tail_cons]
        exact ih hrest _

/-- C5: root reconstruction. For every block `b` and every path whose steps each begin
with tag byte 0x0 or 0x1, `OfflineRootCalc(path, b)` returns the left-to-right fold of the
steps from `hashBytes(b)`: tag 0x0 with digest `d` maps `current` to
`hashTwoBytes(d, current)`, tag 0x1 maps it to `hashTwoBytes(current, d)`; for the empty
path the result is `hashBytes(b)`. -/
theorem offlineRootCalc_is_fold (H : Bytes → Bytes) (path : Option (List Bytes)) (b : Bytes)
    (hk : ∀ step ∈ elems path, knownTag step = true) :
    OfflineRootCalc H path b = .ok (reconstructRoot H ((elems path).map decodeStep) b) ∧
    (elems path = [] → OfflineRootCalc H path b = .ok (hashBytes H b)) := by
  refine ⟨?_, ?_⟩
  · rw [offline_eq_loop, rootLoop_known H _ hk]
    rfl
  · intro h0
    rw [offline_eq_loop, h0]
    rfl

theorem offlineRootCalc_is_fold_witness :
    OfflineRootCalc toyHash (some [[0, 5], [1, 6]]) [3] =
      .ok (hashTwoBytes toyHash (hashTwoBytes toyHash [5] (hashBytes toyHash [3])) [6]) :=
  (offlineRootCalc_is_fold toyHash (some [[0, 5], [1, 6]]) [3] (by decide)).1

/-- One level of the search at a node with two children: a find on the left is extended by
the step `0x1 :: Right.Hash`, a find on the right by the step `0x0 :: Left.Hash`. -/
theorem findProofPath_inner_step (H : Bytes → Bytes) (h lh rh : Bytes)
    (ll lr rl rr : ProofTreeNode) (b : Bytes) :
    (∀ lp, findProofPath (.node lh ll lr) none (hashBytes H b) = .ok (lp, true) →
      FindProofPath H (.node lh ll lr) b = .ok lp ∧
      FindProofPath H (.node h (.node lh ll lr) (.node rh rl rr)) b =
        .ok (some (elems lp ++ [(0x1 : Byte) :: rh]))) ∧
    (∀ lp rp, findProofPath (.node lh ll lr) none (hashBytes H b) = .ok (lp, false) →
      findProofPath (.node rh rl rr) none (hashBytes H b) = .ok (rp, true) →
      FindProofPath H (.node rh rl rr) b = .ok rp ∧
      FindProofPath H (.node h (.node lh ll lr) (.node rh rl rr)) b =
        .ok (some (elems rp ++ [(0x0 : Byte) :: lh]))) := by
  refine ⟨?_, ?_⟩
  · intro lp hl
    refine ⟨by simp [FindProofPath, hl], ?_⟩
    dsimp only [FindProofPath]
    rw [findProofPath_node]
    simp only [hl]
    simp [ProofTreeNode.isNil, ProofTreeNode.getHash, goAppend, _RIGHT_NODE]
  · intro lp rp hl hr
    refine ⟨by simp [FindProofPath, hr], ?_⟩
    dsimp only [FindProofPath]
    rw [findProofPath_node]
    simp only [hl, hr]
    simp [ProofTreeNode.isNil, ProofTreeNode.getHash, goAppend, _LEFT_NODE]

/-- C7: non-membership. For the tree built from a non-empty sequence `S` and every block
`b` whose hash is the digest of no leaf of that tree, `FindProofPath(b)` returns nil, the
not-found result, without faulting. -/
theorem findProofPath_absent_is_nil (H : Bytes → Bytes) (S : List Bytes) (b : Bytes)
    (hS : S ≠ []) (hb : hashBytes H b ∉ leafHashes (GenMkRootAndProof H S).2) :
    FindProofPath H (GenMkRootAndProof H S).2 b = .ok none := by
  obtain ⟨h, l, r, hgen, hbuilt⟩ := gen_built H S hS
  rw [hgen] at hb ⊢
  obtain ⟨p, hfind, -, -⟩ := find_built H (hashBytes H b) _ hbuilt
  simp [FindProofPath, hfind, hb]

theorem findProofPath_absent_is_nil_witness :
    FindProofPath toyHash (GenMkRootAndProof toyHash [[1], [2], [3]]).2 [9] = .ok none :=
  findProofPath_absent_is_nil toyHash [[1], [2], [3]] [9] (by decide)
    (by rw [gen_leafHashes]; decide)

/-- C8, as stated, fails on the single-leaf tree: for the one block of `S = [[1]]` the
returned path is nil, the very value returned for the block `[2]`, whose hash matches no
leaf. -/
theorem found_single_leaf_returns_nil :
    ([1] : Bytes) ∈ ([[1]] : List Bytes) ∧
    hashBytes toyHash [2] ∉ leafHashes (GenMkRootAndProof toyHash [[1]]).2 ∧
    FindProofPath toyHash (GenMkRootAndProof toyHash [[1]]).2 [1] = .ok none ∧
    FindProofPath toyHash (GenMkRootAndProof toyHash [[1]]).2 [2] = .ok none := by
  refine ⟨by decide, ?_, ?_, ?_⟩
  · rw [gen_leafHashes]; decide
  · rw [gen_single]; decide
  · rw [gen_single]; decide

/-- C8, amended: for every block `b` of `S`, when `S` has at least two blocks
`FindProofPath(b)` returns a non-nil path with at least one step, which differs from the
nil returned when no leaf matches; when `S` is a single block the returned path is nil,
the same value as the not-found result. -/
theorem found_path_nonnil_iff_two_blocks (H : Bytes → Bytes) (S : List Bytes) (b : Bytes)
    (hb : b ∈ S) :
    (2 ≤ S.length → ∃ p, FindProofPath H (GenMkRootAndProof H S).2 b = .ok (some p) ∧
      p ≠ []) ∧
    (S.length = 1 → FindProofPath H (GenMkRootAndProof H S).2 b = .ok none) := by
  have hS : S ≠ [] := List.ne_nil_of_mem hb
  obtain ⟨h, l, r, hgen, hbuilt⟩ := gen_built H S hS
  have hmem : hashBytes H b ∈ leafHashes (GenMkRootAndProof H S).2 := by
    rw [gen_leafHashes]; exact List.mem_map_of_mem _ hb
  refine ⟨?_, ?_⟩
  · intro h2
    have hsplit := gen_split H S h2
    obtain ⟨lh, ll, lr, hl, -⟩ := gen_built H _ (take_half_ne_nil S h2)
    rw [hl] at hsplit
    have hleaf : (GenMkRootAndProof H S).2.IsLeaf = .ok false := by
      rw [hsplit]; rfl
    rw [hgen] at hmem hleaf ⊢
    obtain ⟨p, hfind, hin, -⟩ := find_built H (hashBytes H b) _ hbuilt
    obtain ⟨q, step, rfl⟩ := (hin hmem).2.2 hleaf
    exact ⟨q ++ [step], by simp [FindProofPath, hfind, hmem], by simp⟩
  · intro h1
    obtain ⟨d, rfl⟩ := List.length_eq_one.mp h1
    rw [gen_single] at hmem ⊢
    have : hashBytes H d = hashBytes H b := by
      simpa [leafHashes, ProofTreeNode.isNil, eq_comm] using hmem
    simp [FindProofPath, findProofPath_node, ProofTreeNode.isNil, this]

theorem found_path_nonnil_iff_two_blocks_witness :
    ∃ p, FindProofPath toyHash (GenMkRootAndProof toyHash [[1], [2], [3]]).2 [3] =
      .ok (some p) ∧ p ≠ [] :=
  (found_path_nonnil_iff_two_blocks toyHash [[1], [2], [3]] [3] (by decide)).1 (by decide)

/-- C9, as stated, fails: a path whose only step starts with tag 0x2 is accepted when the
root is the hash of the block. -/
theorem unknown_tag_path_accepted :
    knownTag [0x2, 8, 9] = false ∧
    CheckMkData toyHash (some (hashBytes toyHash [3])) (some [[0x2, 8, 9]]) [3] = .ok true := by
  decide

theorem rootLoop_filter_known (H : Bytes → Bytes) (steps : List Bytes)
    (hne : ∀ step ∈ steps, step ≠ []) (c : Bytes) :
    rootLoop H steps c = rootLoop H (steps.filter knownTag) c := by
  induction steps generalizing c with
  | nil => rfl
  | cons s rest ih =>
    have hs := hne s (List.mem_cons_self _ _)
    have hrest : ∀ step ∈ rest, step ≠ [] :=
      fun step hm => hne step (List.mem_cons_of_mem _ hm)
    cases s with
    | nil => exact absurd rfl hs
    | cons tag d =>
      by_cases h0 : tag = _LEFT_NODE
      · have hk : knownTag (tag :: d) = true := by simp [knownTag, h0, _LEFT_NODE]
        rw [List.filter_cons_of_pos hk, rootLoop, rootLoop]
        simp only [rootStep, h0, if_true]
        exact ih hrest _
      · by_cases h1 : tag = _RIGHT_NODE
        · have hk : knownTag (tag :: d) = true := by simp [knownTag, h1, _RIGHT_NODE]
          rw [List.filter_cons_of_pos hk, rootLoop, rootLoop]
          simp only [rootStep, h0, h1, if_true, if_false]
          exact ih hrest _
        · have hk : ¬ knownTag (tag :: d) = true := by
            simp only [_LEFT_NODE, _RIGHT_NODE] at h0 h1
            simp [knownTag, h0, h1]
          rw [List.filter_cons_of_neg hk, rootLoop]
          simp only [rootStep, h0, h1, if_false]
          exact ih hrest _

/-- C9, amended: there is no rejection of paths; a step whose first byte is neither 0x0
nor 0x1 is skipped and leaves the running digest unchanged. For every root, block and path
of non-empty steps, `CheckMkData` returns a boolean, and it is the one it returns for the
path with those steps removed. -/
theorem unknown_tag_steps_skipped (H : Bytes → Bytes) (root : Option Bytes)
    (path : List Bytes) (b : Bytes) (hne : ∀ step ∈ path, step ≠ []) :
    CheckMkData H root (some path) b = CheckMkData H root (some (path.filter knownTag)) b ∧
    ∃ v, CheckMkData H root (some path) b = .ok v := by
  have heq : CheckMkData H root (some path) b =
      CheckMkData H root (some (path.filter knownTag)) b := by
    simp only [CheckMkData, offline_eq_loop, elems, Option.getD_some]
    rw [rootLoop_filter_known H path hne]
  refine ⟨heq, ?_⟩
  rw [heq]
  simp only [CheckMkData, offline_eq_loop, elems, Option.getD_some]
  rw [rootLoop_known H _ (fun step hm => (List.mem_filter.mp hm).2)]
  exact ⟨_, rfl⟩

theorem unknown_tag_steps_skipped_witness :
    CheckMkData toyHash (some [9]) (some [[0x2, 8], [0x1, 6]]) [3] =
      CheckMkData toyHash (some [9]) (some [[0x1, 6]]) [3] :=
  (unknown_tag_steps_skipped toyHash (some [9]) [[0x2, 8], [0x1, 6]] [3] (by decide)).1

/-- C10 fails on the code: a path holding an empty step makes `CheckMkData` fault with an
index out of range at `path[i][0]`, whatever the hash, the root and the block. -/
theorem checkMkData_faults_on_empty_step (H : Bytes → Bytes) (root : Option Bytes)
    (b : Bytes) :
    CheckMkData H root (some [[]]) b = .error .indexOutOfRange := by
  simp [CheckMkData, OfflineRootCalc, elems, rootLoop, rootStep]

/-! ## Membership soundness -/

theorem leaf_mem_leafHashes (t : ProofTreeNode) (c : Bytes)
    (h : ProofTreeNode.node c .nil .nil ∈ nodes t) : c ∈ leafHashes t := by
  induction t with
  | nil => simp [nodes] at h
  | node h0 l r ihl ihr =>
    rw [nodes, List.mem_cons, List.mem_append] at h
    rcases h with heq | hl | hr
    · injection heq with e1 e2 e3
      subst e1 e2 e3
      simp [leafHashes, ProofTreeNode.isNil]
    · have hne : l.isNil = false := by
        cases l with
        | nil => simp [nodes] at hl
        | node _ _ _ => rfl
      simp only [leafHashes, hne, Bool.false_and, Bool.false_eq_true, if_false]
      exact List.mem_append_left _ (ihl hl)
    · have hne : r.isNil = false := by
        cases r with
        | nil => simp [nodes] at hr
        | node _ _ _ => rfl
      simp only [leafHashes, hne, Bool.and_false, Bool.false_eq_true, if_false]
      exact List.mem_append_right _ (ihr hr)

theorem nodes_self (h : Bytes) (l r : ProofTreeNode) :
    ProofTreeNode.node h l r ∈ nodes (.node h l r) := by
  rw [nodes]; exact List.mem_cons_self _ _

/-- In a `Built` tree every node is a leaf without children, or has two children that are
nodes of the tree and carries the hash of their digests. -/
theorem built_node_cases (H : Bytes → Bytes) (t : ProofTreeNode) (ht : Built H t) :
    ∀ c l r, ProofTreeNode.node c l r ∈ nodes t →
      (l = .nil ∧ r = .nil) ∨
      ∃ lh ll lr rh rl rr, l = .node lh ll lr ∧ r = .node rh rl rr ∧
        c = hashTwoBytes H lh rh ∧ l ∈ nodes t ∧ r ∈ nodes t := by
  induction ht with
  | leaf h0 =>
    intro c l r hmem
    simp only [nodes, List.append_nil, List.mem_singleton] at hmem
    injection hmem with e1 e2 e3
    exact Or.inl ⟨e2, e3⟩
  | inner lh rh ll lr rl rr bl br ihl ihr =>
    intro c l r hmem
    rw [nodes, List.mem_cons, List.mem_append] at hmem
    rcases hmem with heq | hl | hr
    · injection heq with e1 e2 e3
      subst e1 e2 e3
      refine Or.inr ⟨lh, ll, lr, rh, rl, rr, rfl, rfl, rfl, ?_, ?_⟩
      · rw [nodes]
        exact List.mem_cons_of_mem _ (List.mem_append_left _ (nodes_self _ _ _))
      · rw [nodes]
        exact List.mem_cons_of_mem _ (List.mem_append_right _ (nodes_self _ _ _))
    · rcases ihl c l r hl with hleaf | ⟨a1, a2, a3, a4, a5, a6, e1, e2, e3, m1, m2⟩
      · exact Or.inl hleaf
      · refine Or.inr ⟨a1, a2, a3, a4, a5, a6, e1, e2, e3, ?_, ?_⟩
        · rw [nodes]; exact List.mem_cons_of_mem _ (List.mem_append_left _ m1)
        · rw [nodes]; exact List.mem_cons_of_mem _ (List.mem_append_left _ m2)
    · rcases ihr c l r hr with hleaf | ⟨a1, a2, a3, a4, a5, a6, e1, e2, e3, m1, m2⟩
      · exact Or.inl hleaf
      · refine Or.inr ⟨a1, a2, a3, a4, a5, a6, e1, e2, e3, ?_, ?_⟩
        · rw [nodes]; exact List.mem_cons_of_mem _ (List.mem_append_right _ m1)
        · rw [nodes]; exact List.mem_cons_of_mem _ (List.mem_append_right _ m2)

/-- Digests of the tree built from `S`: a node digest is the hash of a block of `S`, or the
hash of the concatenation of two node digests of the tree, and that concatenation is one of
the inputs hashed by the build. -/
theorem gen_digest_cases (H : Bytes → Bytes) (S : List Bytes) (hS : S ≠ []) (c : Bytes)
    (l r : ProofTreeNode)
    (hmem : ProofTreeNode.node c l r ∈ nodes (GenMkRootAndProof H S).2) :
    (∃ x ∈ S, c = H x) ∨
    ∃ lh ll lr rh rl rr, c = H (lh ++ rh) ∧ lh ++ rh ∈ hashedByBuild H S ∧
      ProofTreeNode.node lh ll lr ∈ nodes (GenMkRootAndProof H S).2 ∧
      ProofTreeNode.node rh rl rr ∈ nodes (GenMkRootAndProof H S).2 := by
  obtain ⟨h, l0, r0, hgen, hbuilt⟩ := gen_built H S hS
  have hb' : Built H (GenMkRootAndProof H S).2 := by rw [hgen]; exact hbuilt
  rcases built_node_cases H _ hb' c l r hmem with ⟨e1, e2⟩ | ⟨lh, ll, lr, rh, rl, rr, e1, e2, e3, m1, m2⟩
  · subst e1 e2
    have := leaf_mem_leafHashes _ c hmem
    rw [gen_leafHashes, List.mem_map] at this
    obtain ⟨x, hx, rfl⟩ := this
    exact Or.inl ⟨x, hx, rfl⟩
  · subst e1 e2 e3
    refine Or.inr ⟨lh, ll, lr, rh, rl, rr, rfl, ?_, m1, m2⟩
    unfold hashedByBuild
    refine List.mem_append_right _ (List.mem_filterMap.mpr ⟨_, hmem, rfl⟩)

theorem gen_digest_length (H : Bytes → Bytes) (n : ℕ) (hlen : ∀ x, (H x).length = n)
    (S : List Bytes) (hS : S ≠ []) (c : Bytes) (l r : ProofTreeNode)
    (hmem : ProofTreeNode.node c l r ∈ nodes (GenMkRootAndProof H S).2) : c.length = n := by
  rcases gen_digest_cases H S hS c l r hmem with ⟨x, -, rfl⟩ | ⟨lh, _, _, rh, _, _, rfl, -⟩
  · exact hlen x
  · exact hlen _

/-- Going backwards through the loop: if the loop ends at a node digest of the tree built
from `S`, then, with digests of length `n`, steps of a tag plus `n` bytes, no block of
length `2 * n` and no collision between an input hashed by the loop and one hashed by the
build, the running digest the loop started from is a node digest too. -/
theorem loop_start_is_digest (H : Bytes → Bytes) (n : ℕ) (hlen : ∀ x, (H x).length = n)
    (S : List Bytes) (hS : S ≠ []) (hblocks : ∀ x ∈ S, x.length ≠ 2 * n)
    (steps : List Bytes) :
    ∀ c : Bytes, (∀ step ∈ steps, step.length = 1 + n) → c.length = n →
      (∀ u ∈ hashedByLoop H steps c, ∀ v ∈ hashedByBuild H S, H u = H v → u = v) →
      ∀ root, rootLoop H steps c = .ok root →
        (∃ l r, ProofTreeNode.node root l r ∈ nodes (GenMkRootAndProof H S).2) →
        ∃ l r, ProofTreeNode.node c l r ∈ nodes (GenMkRootAndProof H S).2 := by
  induction steps with
  | nil =>
    intro c _ _ _ root hloop hroot
    simp only [rootLoop, Except.ok.injEq] at hloop
    rw [hloop]; exact hroot
  | cons s rest ih =>
    intro c hsteps hc hcoll root hloop hroot
    have hs := hsteps s (List.mem_cons_self _ _)
    have hrest : ∀ step ∈ rest, step.length = 1 + n :=
      fun step hm => hsteps step (List.mem_cons_of_mem _ hm)
    cases s with
    | nil => simp at hs; omega
    | cons tag d =>
      have hd : d.length = n := by simp at hs; omega
      by_cases h0 : tag = _LEFT_NODE
      · simp only [rootLoop, rootStep, h0, if_true] at hloop
        simp only [hashedByLoop, h0, if_true] at hcoll
        obtain ⟨l', r', hnode⟩ := ih (hashTwoBytes H d c) hrest (hlen _)
          (fun u hu v hv => hcoll u (List.mem_cons_of_mem _ hu) v hv) root hloop hroot
        rcases gen_digest_cases H S hS _ l' r' hnode with
          ⟨x, hx, hHx⟩ | ⟨lh, ll, lr, rh, rl, rr, hHx, hin, m1, m2⟩
        · have hxe := hcoll (d ++ c) (List.mem_cons_self _ _) x
            (List.mem_append_left _ hx) hHx
          have := hblocks x hx
          rw [← hxe, List.length_append] at this
          omega
        · have hxe := hcoll (d ++ c) (List.mem_cons_self _ _) (lh ++ rh) hin hHx
          have hl := gen_digest_length H n hlen S hS lh ll lr m1
          have := (List.append_inj hxe (by rw [hd, hl])).2
          exact ⟨rl, rr, by rw [this]; exact m2⟩
      · by_cases h1 : tag = _RIGHT_NODE
        · simp only [rootLoop, rootStep, h0, h1, if_true, if_false] at hloop
          simp only [hashedByLoop, h0, h1, if_true, if_false] at hcoll
          obtain ⟨l', r', hnode⟩ := ih (hashTwoBytes H c d) hrest (hlen _)
            (fun u hu v hv => hcoll u (List.mem_cons_of_mem _ hu) v hv) root hloop hroot
          rcases gen_digest_cases H S hS _ l' r' hnode with
            ⟨x, hx, hHx⟩ | ⟨lh, ll, lr, rh, rl, rr, hHx, hin, m1, m2⟩
          · have hxe := hcoll (c ++ d) (List.mem_cons_self _ _) x
              (List.mem_append_left _ hx) hHx
            have := hblocks x hx
            rw [← hxe, List.length_append] at this
            omega
          · have hxe := hcoll (c ++ d) (List.mem_cons_self _ _) (lh ++ rh) hin hHx
            have hl := gen_digest_length H n hlen S hS lh ll lr m1
            have := (List.append_inj hxe (by rw [hc, hl])).1
            exact ⟨ll, lr, by rw [this]; exact m1⟩
        · simp only [rootLoop, rootStep, h0, h1, if_false] at hloop
          simp only [hashedByLoop, h0, h1, if_false] at hcoll
          exact ih c hrest hc hcoll root hloop hroot

/-- For every hash, the concatenation of the two leaf digests of a two-block tree verifies
against the root with the nil path. -/
theorem child_digests_verify (H : Bytes → Bytes) (x y : Bytes) :
    CheckMkData H (GenMkRootAndProof H [x, y]).1 none (hashBytes H x ++ hashBytes H y) =
      .ok true := by
  rw [gen_split H [x, y] (by simp)]
  simp [CheckMkData, OfflineRootCalc, elems, hashBytes, hashTwoBytes, gen_single]

/-- C2, as stated, fails: with the identity as hash (injective, so without any collision)
and `S = [[1], [2]]`, the block `[1, 2]`, which is the concatenation of the two leaf
digests and not a block of `S`, verifies against the root with the nil path. -/
theorem nonmember_child_digests_accepted :
    Function.Injective (id : Bytes → Bytes) ∧
    ([1, 2] : Bytes) ∉ ([[1], [2]] : List Bytes) ∧
    CheckMkData id (GenMkRootAndProof id [[1], [2]]).1 none [1, 2] = .ok true :=
  ⟨Function.injective_id, by decide, child_digests_verify id [1] [2]⟩

/-- C2, amended: let every digest have length `n`, let `S` be non-empty with no block of
length `2 * n`, let `b` not have length `2 * n`, and let every step of `path` be a tag byte
followed by `n` bytes. If no byte string hashed while verifying collides with a different
byte string hashed while building the tree of `S`, and `CheckMkData(root, path, b)` returns
true for the root of `S`, then `b` is one of the blocks of `S`. -/
theorem membership_sound_length_separated (H : Bytes → Bytes) (n : ℕ) (S : List Bytes)
    (path : Option (List Bytes)) (b : Bytes)
    (hlen : ∀ x, (H x).length = n)
    (hS : S ≠ [])
    (hblocks : ∀ x ∈ S, x.length ≠ 2 * n)
    (hb : b.length ≠ 2 * n)
    (hsteps : ∀ step ∈ elems path, step.length = 1 + n)
    (hcoll : ∀ u ∈ hashedByVerify H path b, ∀ v ∈ hashedByBuild H S, H u = H v → u = v)
    (hcheck : CheckMkData H (GenMkRootAndProof H S).1 path b = .ok true) :
    b ∈ S := by
  obtain ⟨h, l, r, hgen, -⟩ := gen_built H S hS
  have hroot : ∃ l r, ProofTreeNode.node h l r ∈ nodes (GenMkRootAndProof H S).2 :=
    ⟨l, r, by rw [hgen]; exact nodes_self _ _ _⟩
  simp only [CheckMkData, offline_eq_loop, hgen] at hcheck
  cases hloop : rootLoop H (elems path) (hashBytes H b) with
  | error e => rw [hloop] at hcheck; cases hcheck
  | ok root =>
    rw [hloop] at hcheck
    have hrt : root = h := by simpa [elems] using hcheck
    subst hrt
    obtain ⟨l', r', hnode⟩ := loop_start_is_digest H n hlen S hS hblocks (elems path)
      (hashBytes H b) hsteps (hlen b)
      (fun u hu v hv => hcoll u (List.mem_cons_of_mem _ hu) v hv) root hloop hroot
    rcases gen_digest_cases H S hS _ l' r' hnode with
      ⟨x, hx, hHx⟩ | ⟨lh, ll, lr, rh, rl, rr, hHx, hin, m1, m2⟩
    · have : b = x := hcoll b (List.mem_cons_self _ _) x (List.mem_append_left _ hx) hHx
      rw [this]; exact hx
    · have hbe : b = lh ++ rh := hcoll b (List.mem_cons_self _ _) (lh ++ rh) hin hHx
      have hl := gen_digest_length H n hlen S hS lh ll lr m1
      have hr := gen_digest_length H n hlen S hS rh rl rr m2
      rw [hbe, List.length_append] at hb
      omega

theorem gen_toy_three :
    GenMkRootAndProof toyHash [[1], [2], [3]] =
      (some [70], .node [70]
        (.node [196] (.node [101] .nil .nil) (.node [102] .nil .nil))
        (.node [103] .nil .nil)) := by
  simp [GenMkRootAndProof, hashBytes, hashTwoBytes, elems]
  decide

theorem membership_sound_length_separated_witness :
    ([3] : Bytes) ∈ ([[1], [2], [3]] : List Bytes) :=
  membership_sound_length_separated toyHash 1 [[1], [2], [3]] (some [[0x0, 196]]) [3]
    (fun _ => rfl) (by decide) (by decide) (by decide) (by decide)
    (by unfold hashedByBuild; rw [gen_toy_three]; decide)
    (by rw [gen_toy_three]; decide)

/-! ## Shape of the result -/

/-- C16: single-block identity. For every block `b`, `GenMkRootAndProof([b])` returns the
root `hashBytes(b)` and a proof tree that is one leaf, with no `Left` and no `Right`, whose
`Hash` is `hashBytes(b)`. -/
theorem single_block_is_leaf (H : Bytes → Bytes) (b : Bytes) :
    GenMkRootAndProof H [b] = (some (hashBytes H b), .node (hashBytes H b) .nil .nil) ∧
    (GenMkRootAndProof H [b]).2.IsLeaf = .ok true ∧
    (GenMkRootAndProof H [b]).2.getHash = .ok (hashBytes H b) := by
  rw [gen_single]
  exact ⟨rfl, rfl, rfl⟩

/-- C17: empty input. `GenMkRootAndProof` returns the nil root and the nil tree exactly
when the input sequence is empty; for every non-empty sequence the root is a non-nil slice
and the tree a non-nil node. -/
theorem absent_result_iff_empty (H : Bytes → Bytes) (S : List Bytes) :
    (GenMkRootAndProof H S = (none, .nil) ↔ S = []) ∧
    ((GenMkRootAndProof H S).1 = none ↔ S = []) ∧
    ((GenMkRootAndProof H S).2 = .nil ↔ S = []) ∧
    (S ≠ [] → (GenMkRootAndProof H S).1.isSome = true ∧
      (GenMkRootAndProof H S).2.isNil = false) := by
  by_cases hS : S = []
  · subst hS
    simp [gen_nil]
  · obtain ⟨h, l, r, hgen, -⟩ := gen_built H S hS
    rw [hgen]
    simp [hS, ProofTreeNode.isNil]

theorem absent_result_iff_empty_witness :
    (GenMkRootAndProof toyHash [[1], [2]]).1.isSome = true ∧
      (GenMkRootAndProof toyHash [[1], [2]]).2.isNil = false :=
  (absent_result_iff_empty toyHash [[1], [2]]).2.2.2 (by decide)

/-- C18: root equals tree digest. For every non-empty sequence `S`, the root returned by
`GenMkRootAndProof(S)` has the same bytes as the `Hash` field of the root node of the
returned tree. -/
theorem root_is_tree_hash (H : Bytes → Bytes) (S : List Bytes) (hS : S ≠ []) :
    ∃ root, (GenMkRootAndProof H S).1 = some root ∧
      (GenMkRootAndProof H S).2.getHash = .ok root := by
  obtain ⟨h, l, r, hgen, -⟩ := gen_built H S hS
  rw [hgen]
  exact ⟨h, rfl, rfl⟩

theorem root_is_tree_hash_witness :
    ∃ root, (GenMkRootAndProof toyHash [[1], [2], [3]]).1 = some root ∧
      (GenMkRootAndProof toyHash [[1], [2], [3]]).2.getHash = .ok root :=
  root_is_tree_hash toyHash [[1], [2], [3]] (by decide)

/-- C19: leaves preserve the input. For every non-empty sequence `S` of `n` blocks, the
leaf digests of the returned tree, read left to right, are `hashBytes(S[0])`, ...,
`hashBytes(S[n-1])` in input order; the tree has exactly `n` leaves. -/
theorem leaves_are_block_hashes (H : Bytes → Bytes) (S : List Bytes) (hS : S ≠ []) :
    leafHashes (GenMkRootAndProof H S).2 = S.map (hashBytes H) ∧
    (leafHashes (GenMkRootAndProof H S).2).length = S.length ∧
    0 < (leafHashes (GenMkRootAndProof H S).2).length ∧
    ∀ i, i < S.length →
      (leafHashes (GenMkRootAndProof H S).2)[i]? = (S[i]?).map (hashBytes H) := by
  rw [gen_leafHashes]
  refine ⟨rfl, by simp, ?_, ?_⟩
  · rw [List.length_map]
    exact List.length_pos.mpr hS
  · intro i _
    simp

theorem leaves_are_block_hashes_witness :
    leafHashes (GenMkRootAndProof toyHash [[1], [2], [3]]).2 =
      [hashBytes toyHash [1], hashBytes toyHash [2], hashBytes toyHash [3]] :=
  (leaves_are_block_hashes toyHash [[1], [2], [3]] (by decide)).1

/-- C20: strictly binary. Every node of the tree returned for a non-empty sequence has
either no child or both a `Left` and a `Right` child; consequently `FindProofPath` on that
tree returns for every block, without dereferencing a nil child. -/
theorem strictly_binary_no_fault (H : Bytes → Bytes) (S : List Bytes) (hS : S ≠ []) :
    (∀ h l r, ProofTreeNode.node h l r ∈ nodes (GenMkRootAndProof H S).2 →
      (l.isNil = true ∧ r.isNil = true) ∨ (l.isNil = false ∧ r.isNil = false)) ∧
    ∀ b, ∃ p, FindProofPath H (GenMkRootAndProof H S).2 b = .ok p := by
  obtain ⟨h, l, r, hgen, hbuilt⟩ := gen_built H S hS
  rw [hgen]
  refine ⟨?_, ?_⟩
  · intro c l' r' hmem
    rcases built_node_cases H _ hbuilt c l' r' hmem with
      ⟨e1, e2⟩ | ⟨lh, ll, lr, rh, rl, rr, e1, e2, -⟩
    · subst e1 e2; exact Or.inl ⟨rfl, rfl⟩
    · subst e1 e2; exact Or.inr ⟨rfl, rfl⟩
  · intro b
    obtain ⟨p, hfind, -, -⟩ := find_built H (hashBytes H b) _ hbuilt
    by_cases hm : hashBytes H b ∈ leafHashes (.node h l r)
    · exact ⟨p, by simp [FindProofPath, hfind, hm]⟩
    · exact ⟨none, by simp [FindProofPath, hfind, hm]⟩

theorem strictly_binary_no_fault_witness :
    ∃ p, FindProofPath toyHash (GenMkRootAndProof toyHash [[1], [2], [3]]).2 [9] = .ok p :=
  (strictly_binary_no_fault toyHash [[1], [2], [3]] (by decide)).2 [9]

theorem gen_three (H : Bytes → Bytes) (a b c : Bytes) :
    GenMkRootAndProof H [a, b, c] =
      (some (hashTwoBytes H (hashTwoBytes H (hashBytes H a) (hashBytes H b)) (hashBytes H c)),
        .node (hashTwoBytes H (hashTwoBytes H (hashBytes H a) (hashBytes H b)) (hashBytes H c))
          (.node (hashTwoBytes H (hashBytes H a) (hashBytes H b))
            (.node (hashBytes H a) .nil .nil) (.node (hashBytes H b) .nil .nil))
          (.node (hashBytes H c) .nil .nil)) := by
  simp [GenMkRootAndProof, elems]

/-- C15: concrete scenario. For three blocks `a`, `b`, `c` where `hashBytes(c)` differs
from `hashBytes(a)` and from `hashBytes(b)`, `GenMkRootAndProof` returns the root
`hashTwoBytes(hashTwoBytes(hashBytes(a), hashBytes(b)), hashBytes(c))`, and `FindProofPath`
for `c` on the built tree is exactly one step: tag 0x0 followed by
`hashTwoBytes(hashBytes(a), hashBytes(b))`. -/
theorem three_blocks_root_and_path (H : Bytes → Bytes) (a b c : Bytes)
    (hca : hashBytes H c ≠ hashBytes H a) (hcb : hashBytes H c ≠ hashBytes H b) :
    (GenMkRootAndProof H [a, b, c]).1 =
      some (hashTwoBytes H (hashTwoBytes H (hashBytes H a) (hashBytes H b))
        (hashBytes H c)) ∧
    FindProofPath H (GenMkRootAndProof H [a, b, c]).2 c =
      .ok (some [(0x0 : Byte) :: hashTwoBytes H (hashBytes H a) (hashBytes H b)]) := by
  rw [gen_three]
  refine ⟨rfl, ?_⟩
  simp [FindProofPath, findProofPath, ProofTreeNode.isNil, ProofTreeNode.getHash, goAppend,
    elems, _LEFT_NODE, Ne.symm hca, Ne.symm hcb]

theorem three_blocks_root_and_path_witness :
    FindProofPath toyHash (GenMkRootAndProof toyHash [[97], [98], [99]]).2 [99] =
      .ok (some [(0x0 : Byte) :: hashTwoBytes toyHash (hashBytes toyHash [97])
        (hashBytes toyHash [98])]) :=
  (three_blocks_root_and_path toyHash [97] [98] [99] (by decide) (by decide)).2

/-! ## The found leaf and the length of its path -/

theorem leafHashes_inner (h lh rh : Bytes) (ll lr rl rr : ProofTreeNode) :
    leafHashes (.node h (.node lh ll lr) (.node rh rl rr)) =
      leafHashes (.node lh ll lr) ++ leafHashes (.node rh rl rr) := by
  simp [leafHashes, ProofTreeNode.isNil]

/-- On a `Built` tree holding the wanted digest among its leaves, the search finds the
leftmost leaf with that digest and returns that leaf's path. -/
theorem find_leftmost (H : Bytes → Bytes) (data : Bytes) (t : ProofTreeNode)
    (ht : Built H t) (hmem : data ∈ leafHashes t) :
    ∃ p k, findProofPath t none data = .ok (p, true) ∧ elems p = leafPath t k ∧
      (leafHashes t)[k]? = some data ∧ ∀ j, j < k → (leafHashes t)[j]? ≠ some data := by
  induction ht with
  | leaf h =>
    have hd : data = h := by simpa [leafHashes, ProofTreeNode.isNil] using hmem
    subst hd
    refine ⟨none, 0, ?_, ?_, ?_, ?_⟩
    · simp [findProofPath, ProofTreeNode.isNil]
    · simp [elems, leafPath]
    · simp [leafHashes, ProofTreeNode.isNil]
    · intro j hj; omega
  | inner lh rh ll lr rl rr bl br ihl ihr =>
    rw [leafHashes_inner] at hmem ⊢
    by_cases hL : data ∈ leafHashes (.node lh ll lr)
    · obtain ⟨lp, k, hf, hp, hk, hmin⟩ := ihl hL
      have hklt : k < (leafHashes (.node lh ll lr)).length :=
        (List.getElem?_eq_some.mp hk).1
      refine ⟨goAppend lp (_RIGHT_NODE :: rh), k, ?_, ?_, ?_, ?_⟩
      · rw [findProofPath_node]
        simp [ProofTreeNode.isNil, hf, ProofTreeNode.getHash]
      · rw [leafPath, if_pos hklt, ← hp]
        simp [goAppend, elems, _RIGHT_NODE]
      · rw [List.getElem?_append_left hklt]; exact hk
      · intro j hj
        rw [List.getElem?_append_left (lt_trans hj hklt)]
        exact hmin j hj
    · have hR : data ∈ leafHashes (.node rh rl rr) := by
        rcases List.mem_append.mp hmem with h1 | h1
        · exact absurd h1 hL
        · exact h1
      obtain ⟨rp, k, hf, hp, hk, hmin⟩ := ihr hR
      obtain ⟨lp, hlf, -, -⟩ := find_built H data _ bl
      refine ⟨goAppend rp (_LEFT_NODE :: lh),
        (leafHashes (.node lh ll lr)).length + k, ?_, ?_, ?_, ?_⟩
      · rw [findProofPath_node]
        simp [ProofTreeNode.isNil, hlf, hL, hf, ProofTreeNode.getHash]
      · have hnot : ¬ (leafHashes (.node lh ll lr)).length + k <
            (leafHashes (.node lh ll lr)).length := by omega
        rw [leafPath, if_neg hnot, Nat.add_sub_cancel_left, ← hp]
        simp [goAppend, elems, _LEFT_NODE]
      · rw [List.getElem?_append_right (Nat.le_add_right _ _), Nat.add_sub_cancel_left]
        exact hk
      · intro j hj
        by_cases hjl : j < (leafHashes (.node lh ll lr)).length
        · rw [List.getElem?_append_left hjl]
          intro hcon
          exact hL (List.getElem?_mem hcon)
        · rw [List.getElem?_append_right (by omega)]
          exact hmin _ (by omega)

theorem leafPath_length_le_height (t : ProofTreeNode) :
    ∀ k, (leafPath t k).length ≤ height t := by
  induction t with
  | nil => intro k; simp [leafPath]
  | node h l r ihl ihr =>
    intro k
    cases l with
    | nil => simp [leafPath]
    | node lh ll lr =>
      cases r with
      | nil => simp [leafPath]
      | node rh rl rr =>
        rw [leafPath]
        have hh : height (.node h (.node lh ll lr) (.node rh rl rr)) =
            1 + max (height (.node lh ll lr)) (height (.node rh rl rr)) := by
          rw [height]; simp [ProofTreeNode.isNil]
        rw [hh]
        split
        · have := ihl k
          rw [List.length_append, List.length_singleton]
          have := le_max_left (height (.node lh ll lr)) (height (.node rh rl rr))
          omega
        · have := ihr (k - (leafHashes (.node lh ll lr)).length)
          rw [List.length_append, List.length_singleton]
          have := le_max_right (height (.node lh ll lr)) (height (.node rh rl rr))
          omega

theorem height_gen (H : Bytes → Bytes) (S : List Bytes) :
    height (GenMkRootAndProof H S).2 = Nat.clog 2 S.length := by
  induction S using GenMkRootAndProof.induct H with
  | case1 => simp [gen_nil, height]
  | case2 d => simp [gen_single, height, ProofTreeNode.isNil, Nat.clog_one_right]
  | case3 d0 d1 ds datas ihl ihr =>
    have h2 : 2 ≤ (d0 :: d1 :: ds).length := by simp
    obtain ⟨lh, ll, lr, hl, -⟩ := gen_built H _ (take_half_ne_nil _ h2)
    simp only [datas] at ihl ihr
    rw [gen_split H _ h2]
    have hnil : (GenMkRootAndProof H
        (List.take (((d0 :: d1 :: ds).length + 1) / 2) (d0 :: d1 :: ds))).2.isNil = false := by
      rw [hl]; rfl
    simp only [height, hnil, Bool.false_and, Bool.false_eq_true, if_false]
    rw [ihl, ihr, List.length_take, List.length_drop, Nat.clog_of_two_le (by omega) h2]
    have hmono : Nat.clog 2 ((d0 :: d1 :: ds).length - ((d0 :: d1 :: ds).length + 1) / 2) ≤
        Nat.clog 2 (min (((d0 :: d1 :: ds).length + 1) / 2) (d0 :: d1 :: ds).length) :=
      Nat.clog_mono_right 2 (by omega)
    rw [max_eq_left hmono]
    have hmin : min (((d0 :: d1 :: ds).length + 1) / 2) (d0 :: d1 :: ds).length =
        ((d0 :: d1 :: ds).length + 2 - 1) / 2 := by omega
    rw [hmin]; omega

theorem ceil_log_two (n : ℕ) : ⌈Real.logb 2 (n : ℝ)⌉₊ = Nat.clog 2 n := by
  have h := Real.ceil_logb_natCast (b := 2) (r := (n : ℝ)) (Nat.cast_nonneg n)
  rw [Int.clog_natCast] at h
  rw [← Int.ceil_toNat]
  have h2 : ((2 : ℕ) : ℝ) = 2 := by norm_num
  rw [h2] at h
  rw [h]
  simp

/-- C13: proof size. For every block `b` of a sequence `S` of `n ≥ 1` blocks,
`FindProofPath` on the tree built from `S` returns a path of at most `⌈log₂ n⌉` steps, and
the height of that tree is exactly `⌈log₂ n⌉`. -/
theorem path_length_le_ceil_log (H : Bytes → Bytes) (S : List Bytes) (b : Bytes)
    (hb : b ∈ S) :
    (∃ p, FindProofPath H (GenMkRootAndProof H S).2 b = .ok p ∧
      (elems p).length ≤ ⌈Real.logb 2 (S.length : ℝ)⌉₊) ∧
    height (GenMkRootAndProof H S).2 = ⌈Real.logb 2 (S.length : ℝ)⌉₊ := by
  rw [ceil_log_two, height_gen]
  refine ⟨?_, rfl⟩
  have hS : S ≠ [] := List.ne_nil_of_mem hb
  obtain ⟨h, l, r, hgen, hbuilt⟩ := gen_built H S hS
  have hmem : hashBytes H b ∈ leafHashes (GenMkRootAndProof H S).2 := by
    rw [gen_leafHashes]; exact List.mem_map_of_mem _ hb
  have hheight := height_gen H S
  rw [hgen] at hmem hheight ⊢
  obtain ⟨p, k, hfind, hp, -, -⟩ := find_leftmost H (hashBytes H b) _ hbuilt hmem
  refine ⟨p, by simp [FindProofPath, hfind], ?_⟩
  rw [hp, ← hheight]
  exact leafPath_length_le_height _ k

theorem path_length_le_ceil_log_witness :
    ∃ p, FindProofPath toyHash (GenMkRootAndProof toyHash [[1], [2], [3]]).2 [3] = .ok p ∧
      (elems p).length ≤ ⌈Real.logb 2 (([[1], [2], [3]] : List Bytes).length : ℝ)⌉₊ :=
  (path_length_le_ceil_log toyHash [[1], [2], [3]] [3] (by decide)).1

/-- C14: duplicate blocks. For the tree built from `S` and every block `b` whose hash is
the digest of one or more leaves, `FindProofPath(b)` returns the path of the leftmost leaf
carrying that digest: the leaf at the least position `k`, read left to right. For
`S = [a, a]` the path is the single step 0x1 followed by `hashBytes(a)`. -/
theorem duplicate_returns_leftmost (H : Bytes → Bytes) (S : List Bytes) (b : Bytes)
    (hmem : hashBytes H b ∈ leafHashes (GenMkRootAndProof H S).2) :
    (∃ p k, FindProofPath H (GenMkRootAndProof H S).2 b = .ok p ∧
      elems p = leafPath (GenMkRootAndProof H S).2 k ∧
      (leafHashes (GenMkRootAndProof H S).2)[k]? = some (hashBytes H b) ∧
      ∀ j, j < k → (leafHashes (GenMkRootAndProof H S).2)[j]? ≠ some (hashBytes H b)) ∧
    ∀ a, FindProofPath H (GenMkRootAndProof H [a, a]).2 a =
      .ok (some [(0x1 : Byte) :: hashBytes H a]) := by
  refine ⟨?_, ?_⟩
  · have hS : S ≠ [] := by
      rintro rfl
      simp [gen_nil, leafHashes] at hmem
    obtain ⟨h, l, r, hgen, hbuilt⟩ := gen_built H S hS
    rw [hgen] at hmem ⊢
    obtain ⟨p, k, hfind, hp, hk, hmin⟩ := find_leftmost H (hashBytes H b) _ hbuilt hmem
    exact ⟨p, k, by simp [FindProofPath, hfind], hp, hk, hmin⟩
  · intro a
    have hgen : GenMkRootAndProof H [a, a] =
        (some (hashTwoBytes H (hashBytes H a) (hashBytes H a)),
          .node (hashTwoBytes H (hashBytes H a) (hashBytes H a))
            (.node (hashBytes H a) .nil .nil) (.node (hashBytes H a) .nil .nil)) := by
      simp [GenMkRootAndProof, elems]
    rw [hgen]
    simp [FindProofPath, findProofPath, ProofTreeNode.isNil, ProofTreeNode.getHash,
      goAppend, elems, _RIGHT_NODE]

theorem duplicate_returns_leftmost_witness :
    ∃ p k, FindProofPath toyHash (GenMkRootAndProof toyHash [[1], [2], [1]]).2 [1] = .ok p ∧
      elems p = leafPath (GenMkRootAndProof toyHash [[1], [2], [1]]).2 k ∧
      (leafHashes (GenMkRootAndProof toyHash [[1], [2], [1]]).2)[k]? =
        some (hashBytes toyHash [1]) ∧
      ∀ j, j < k → (leafHashes (GenMkRootAndProof toyHash [[1], [2], [1]]).2)[j]? ≠
        some (hashBytes toyHash [1]) :=
  (duplicate_returns_leftmost toyHash [[1], [2], [1]] [1]
    (by rw [gen_leafHashes]; decide)).1

/-! ## Order sensitivity -/

theorem hashedPairs_inner (h lh rh : Bytes) (ll lr rl rr : ProofTreeNode) :
    hashedPairs (.node h (.node lh ll lr) (.node rh rl rr)) =
      (lh, rh) :: (hashedPairs (.node lh ll lr) ++ hashedPairs (.node rh rl rr)) := by
  unfold hashedPairs
  rw [nodes, List.filterMap_cons, List.filterMap_append]
  rfl

/-- Two sequences of the same length with the same root are equal, when `hashBytes` has no
collision between their blocks and `hashTwoBytes` none between the digest pairs of their
trees. -/
theorem gen_root_injective (H : Bytes → Bytes) (S : List Bytes) :
    ∀ S' : List Bytes, S.length = S'.length →
      (∀ x ∈ S, ∀ y ∈ S', hashBytes H x = hashBytes H y → x = y) →
      (∀ p ∈ hashedPairs (GenMkRootAndProof H S).2,
        ∀ q ∈ hashedPairs (GenMkRootAndProof H S').2,
          hashTwoBytes H p.1 p.2 = hashTwoBytes H q.1 q.2 → p = q) →
      (GenMkRootAndProof H S).1 = (GenMkRootAndProof H S').1 → S = S' := by
  induction S using GenMkRootAndProof.induct H with
  | case1 =>
    intro S' hlen _ _ _
    exact (List.length_eq_zero.mp hlen.symm).symm
  | case2 d =>
    intro S' hlen hleaf _ hroot
    obtain ⟨d', rfl⟩ := List.length_eq_one.mp hlen.symm
    rw [gen_single, gen_single] at hroot
    have hd : hashBytes H d = hashBytes H d' := by simpa using hroot
    rw [hleaf d (List.mem_singleton_self _) d' (List.mem_singleton_self _) hd]
  | case3 d0 d1 ds datas ihl ihr =>
    intro S' hlen hleaf hnode hroot
    simp only [datas] at ihl ihr
    have h2 : 2 ≤ (d0 :: d1 :: ds).length := by simp
    have h2' : 2 ≤ S'.length := by rw [← hlen]; exact h2
    obtain ⟨lh, ll, lr, hl, -⟩ := gen_built H _ (take_half_ne_nil _ h2)
    obtain ⟨rh, rl, rr, hr, -⟩ := gen_built H _ (drop_half_ne_nil _ h2)
    obtain ⟨lh', ll', lr', hl', -⟩ := gen_built H _ (take_half_ne_nil _ h2')
    obtain ⟨rh', rl', rr', hr', -⟩ := gen_built H _ (drop_half_ne_nil _ h2')
    have hs := gen_split H _ h2
    have hs' := gen_split H _ h2'
    rw [hl, hr] at hs
    rw [hl', hr'] at hs'
    simp only [elems, Option.getD_some] at hs hs'
    rw [hs, hs'] at hroot hnode
    rw [hashedPairs_inner, hashedPairs_inner] at hnode
    have hh : hashTwoBytes H lh rh = hashTwoBytes H lh' rh' := by simpa using hroot
    have hpair := hnode (lh, rh) (List.mem_cons_self _ _) (lh', rh')
      (List.mem_cons_self _ _) hh
    have e1 : lh = lh' := congrArg Prod.fst hpair
    have e2 : rh = rh' := congrArg Prod.snd hpair
    have htake := ihl (S'.take ((S'.length + 1) / 2))
      (by rw [List.length_take, List.length_take, hlen])
      (fun x hx y hy => hleaf x (List.mem_of_mem_take hx) y (List.mem_of_mem_take hy))
      (by
        rw [hl, hl']
        intro p hp q hq
        exact hnode p (List.mem_cons_of_mem _ (List.mem_append_left _ hp)) q
          (List.mem_cons_of_mem _ (List.mem_append_left _ hq)))
      (by rw [hl, hl', e1])
    have hdrop := ihr (S'.drop ((S'.length + 1) / 2))
      (by rw [List.length_drop, List.length_drop, hlen])
      (fun x hx y hy => hleaf x (List.mem_of_mem_drop hx) y (List.mem_of_mem_drop hy))
      (by
        rw [hr, hr']
        intro p hp q hq
        exact hnode p (List.mem_cons_of_mem _ (List.mem_append_right _ hp)) q
          (List.mem_cons_of_mem _ (List.mem_append_right _ hq)))
      (by rw [hr, hr', e2])
    rw [← List.take_append_drop (((d0 :: d1 :: ds).length + 1) / 2) (d0 :: d1 :: ds),
      ← List.take_append_drop ((S'.length + 1) / 2) S', htake, hdrop]

theorem swapBlocks_length (S : List Bytes) (i j : ℕ) :
    (swapBlocks S i j).length = S.length := by
  simp [swapBlocks]

theorem swapBlocks_mem (S : List Bytes) (i j : ℕ) (hi : i < S.length) (hj : j < S.length)
    (y : Bytes) (hy : y ∈ swapBlocks S i j) : y ∈ S := by
  unfold swapBlocks at hy
  have hgi : S.getD i [] ∈ S := by
    rw [List.getD_eq_getElem _ _ hi]; exact List.getElem_mem _
  have hgj : S.getD j [] ∈ S := by
    rw [List.getD_eq_getElem _ _ hj]; exact List.getElem_mem _
  rcases List.mem_or_eq_of_mem_set hy with h1 | h1
  · rcases List.mem_or_eq_of_mem_set h1 with h2 | h2
    · exact h2
    · rw [h2]; exact hgj
  · rw [h1]; exact hgi

theorem swapBlocks_ne (S : List Bytes) (i j : ℕ) (hi : i < S.length) (hj : j < S.length)
    (hne : S[i] ≠ S[j]) : swapBlocks S i j ≠ S := by
  intro heq
  have hij : i ≠ j := by
    rintro rfl
    exact hne rfl
  have h1 : (swapBlocks S i j)[i]? = some S[j] := by
    unfold swapBlocks
    rw [List.getElem?_set, if_neg (Ne.symm hij), List.getElem?_set, if_pos rfl, if_pos hi,
      List.getD_eq_getElem _ _ hj]
  rw [heq, List.getElem?_eq_getElem hi] at h1
  exact hne (Option.some.inj h1)

/-- C12: order sensitivity. For every sequence `S` and positions `i`, `j` with
`S[i] ≠ S[j]` (so `i ≠ j`), when `hashBytes` has no collision on the blocks and `hashTwoBytes` none
between the digest pairs hashed for the two trees, the root returned for `S` with the
blocks at `i` and `j` swapped differs from the root returned for `S`. -/
theorem swap_changes_root (H : Bytes → Bytes) (S : List Bytes) (i j : ℕ)
    (hi : i < S.length) (hj : j < S.length) (hne : S[i] ≠ S[j])
    (hleaf : ∀ x ∈ S, ∀ y ∈ S, hashBytes H x = hashBytes H y → x = y)
    (hnode : ∀ p ∈ hashedPairs (GenMkRootAndProof H (swapBlocks S i j)).2,
      ∀ q ∈ hashedPairs (GenMkRootAndProof H S).2,
        hashTwoBytes H p.1 p.2 = hashTwoBytes H q.1 q.2 → p = q) :
    (GenMkRootAndProof H (swapBlocks S i j)).1 ≠ (GenMkRootAndProof H S).1 := by
  intro hroot
  exact swapBlocks_ne S i j hi hj hne
    (gen_root_injective H (swapBlocks S i j) S (swapBlocks_length S i j)
      (fun x hx y hy => hleaf x (swapBlocks_mem S i j hi hj x hx) y hy) hnode hroot)

theorem swap_changes_root_witness :
    (GenMkRootAndProof toyHash (swapBlocks [[1], [2], [3]] 0 2)).1 ≠
      (GenMkRootAndProof toyHash [[1], [2], [3]]).1 :=
  swap_changes_root toyHash [[1], [2], [3]] 0 2 (by decide) (by decide) (by decide)
    (by decide)
    (by
      have hsw : swapBlocks [[1], [2], [3]] 0 2 = [[3], [2], [1]] := by decide
      rw [hsw, gen_three, gen_three]
      decide)

/-! ## Tamper detection -/

theorem hashedByLoop_cons (H : Bytes → Bytes) (tag : Byte) (d : Bytes) (rest : List Bytes)
    (c : Bytes) :
    hashedByLoop H ((tag :: d) :: rest) c =
      if tag = _LEFT_NODE then (d ++ c) :: hashedByLoop H rest (hashTwoBytes H d c)
      else if tag = _RIGHT_NODE then (c ++ d) :: hashedByLoop H rest (hashTwoBytes H c d)
      else hashedByLoop H rest c := by
  rw [hashedByLoop]

theorem rootLoop_cons (H : Bytes → Bytes) (tag : Byte) (d : Bytes) (rest : List Bytes)
    (c : Bytes) :
    rootLoop H ((tag :: d) :: rest) c =
      if tag = _LEFT_NODE then rootLoop H rest (hashTwoBytes H d c)
      else if tag = _RIGHT_NODE then rootLoop H rest (hashTwoBytes H c d)
      else rootLoop H rest c := by
  rw [rootLoop, rootStep]
  split_ifs <;> rfl

theorem hashedByLoop_append (H : Bytes → Bytes) (p q : List Bytes) (c : Bytes) :
    hashedByLoop H (p ++ q) c = hashedByLoop H p c ++
      (match rootLoop H p c with
       | .error _ => []
       | .ok t => hashedByLoop H q t) := by
  induction p generalizing c with
  | nil => simp [hashedByLoop, rootLoop]
  | cons s p ih =>
    cases s with
    | nil => simp [hashedByLoop, rootLoop, rootStep]
    | cons tag d =>
      rw [List.cons_append, hashedByLoop_cons, hashedByLoop_cons, rootLoop_cons]
      split_ifs
      · rw [ih, List.cons_append]
      · rw [ih, List.cons_append]
      · rw [ih]

/-- Whether the loop faults depends on the steps only, not on the running digest. -/
theorem rootLoop_ok_of_ok (H : Bytes → Bytes) (steps : List Bytes) :
    ∀ c c' r, rootLoop H steps c = .ok r → ∃ r', rootLoop H steps c' = .ok r' := by
  induction steps with
  | nil => intro c c' r _; exact ⟨c', rfl⟩
  | cons s rest ih =>
    intro c c' r hr
    cases s with
    | nil => simp [rootLoop, rootStep] at hr
    | cons tag d =>
      by_cases h0 : tag = _LEFT_NODE
      · simp only [rootLoop, rootStep, h0, if_true] at hr ⊢
        exact ih _ _ r hr
      · by_cases h1 : tag = _RIGHT_NODE
        · simp only [rootLoop, rootStep, h0, h1, if_true, if_false] at hr ⊢
          exact ih _ _ r hr
        · simp only [rootLoop, rootStep, h0, h1, if_false] at hr ⊢
          exact ih _ _ r hr

/-- Two runs of the loop over the same steps from different running digests end in
different digests, when no input hashed by one run collides with a different input hashed
by the other. -/
theorem rootLoop_diverges (H : Bytes → Bytes) (steps : List Bytes) :
    ∀ c c', c ≠ c' →
      (∀ u ∈ hashedByLoop H steps c, ∀ v ∈ hashedByLoop H steps c', H u = H v → u = v) →
      ∀ r r', rootLoop H steps c = .ok r → rootLoop H steps c' = .ok r' → r ≠ r' := by
  induction steps with
  | nil =>
    intro c c' hne _ r r' hr hr'
    simp only [rootLoop, Except.ok.injEq] at hr hr'
    rw [← hr, ← hr']; exact hne
  | cons s rest ih =>
    intro c c' hne hcoll r r' hr hr'
    cases s with
    | nil => simp [rootLoop, rootStep] at hr
    | cons tag d =>
      by_cases h0 : tag = _LEFT_NODE
      · simp only [rootLoop, rootStep, h0, if_true] at hr hr'
        simp only [hashedByLoop, h0, if_true] at hcoll
        refine ih _ _ ?_ (fun u hu v hv => hcoll u (List.mem_cons_of_mem _ hu) v
          (List.mem_cons_of_mem _ hv)) r r' hr hr'
        intro heq
        have := hcoll (d ++ c) (List.mem_cons_self _ _) (d ++ c') (List.mem_cons_self _ _) heq
        exact hne (List.append_cancel_left this)
      · by_cases h1 : tag = _RIGHT_NODE
        · simp only [rootLoop, rootStep, h0, h1, if_true, if_false] at hr hr'
          simp only [hashedByLoop, h0, h1, if_true, if_false] at hcoll
          refine ih _ _ ?_ (fun u hu v hv => hcoll u (List.mem_cons_of_mem _ hu) v
            (List.mem_cons_of_mem _ hv)) r r' hr hr'
          intro heq
          have := hcoll (c ++ d) (List.mem_cons_self _ _) (c' ++ d) (List.mem_cons_self _ _)
            heq
          exact hne (List.append_cancel_right this)
        · simp only [rootLoop, rootStep, h0, h1, if_false] at hr hr'
          simp only [hashedByLoop, h0, h1, if_false] at hcoll
          exact ih _ _ hne hcoll r r' hr hr'

/-- Replacing the digest of one step whose tag is `_LEFT_NODE` or `_RIGHT_NODE` changes
the result of the loop, when no input hashed by one run collides with a different input
hashed by the other. -/
theorem digest_change_detected (H : Bytes → Bytes) (pre post : List Bytes) (tag : Byte)
    (d d' c0 r : Bytes) (hk : tag = _LEFT_NODE ∨ tag = _RIGHT_NODE) (hd : d' ≠ d)
    (hloop : rootLoop H (pre ++ (tag :: d) :: post) c0 = .ok r)
    (hcoll : ∀ u ∈ hashedByLoop H (pre ++ (tag :: d) :: post) c0,
      ∀ v ∈ hashedByLoop H (pre ++ (tag :: d') :: post) c0, H u = H v → u = v) :
    ∃ r', rootLoop H (pre ++ (tag :: d') :: post) c0 = .ok r' ∧ r' ≠ r := by
  rw [rootLoop_append] at hloop ⊢
  rw [hashedByLoop_append, hashedByLoop_append] at hcoll
  cases hpre : rootLoop H pre c0 with
  | error e => rw [hpre] at hloop; cases hloop
  | ok c1 =>
    rw [hpre] at hloop hcoll
    simp only at hloop hcoll ⊢
    rw [rootLoop_cons] at hloop ⊢
    rw [hashedByLoop_cons, hashedByLoop_cons] at hcoll
    rcases hk with h0 | h1
    · simp only [h0, if_true] at hloop hcoll ⊢
      obtain ⟨r', hr'⟩ := rootLoop_ok_of_ok H post _ (hashTwoBytes H d' c1) r hloop
      refine ⟨r', hr', ?_⟩
      refine rootLoop_diverges H post (hashTwoBytes H d' c1) (hashTwoBytes H d c1) ?_ ?_
        r' r hr' hloop
      · intro heq
        have := hcoll (d ++ c1)
          (List.mem_append_right _ (List.mem_cons_self _ _)) (d' ++ c1)
          (List.mem_append_right _ (List.mem_cons_self _ _)) heq.symm
        exact hd (List.append_cancel_right this).symm
      · intro u hu v hv huv
        exact (hcoll v (List.mem_append_right _ (List.mem_cons_of_mem _ hv)) u
          (List.mem_append_right _ (List.mem_cons_of_mem _ hu)) huv.symm).symm
    · have hne : ¬ (_RIGHT_NODE = _LEFT_NODE) := by decide
      simp only [h1, hne, if_true, if_false] at hloop hcoll ⊢
      obtain ⟨r', hr'⟩ := rootLoop_ok_of_ok H post _ (hashTwoBytes H c1 d') r hloop
      refine ⟨r', hr', ?_⟩
      refine rootLoop_diverges H post (hashTwoBytes H c1 d') (hashTwoBytes H c1 d) ?_ ?_
        r' r hr' hloop
      · intro heq
        have := hcoll (c1 ++ d)
          (List.mem_append_right _ (List.mem_cons_self _ _)) (c1 ++ d')
          (List.mem_append_right _ (List.mem_cons_self _ _)) heq.symm
        exact hd (List.append_cancel_left this).symm
      · intro u hu v hv huv
        exact (hcoll v (List.mem_append_right _ (List.mem_cons_of_mem _ hv)) u
          (List.mem_append_right _ (List.mem_cons_of_mem _ hu)) huv.symm).symm

/-- C11, as stated, fails: with the identity as hash (injective, so without any collision)
the path whose only step carries tag 0x2 is accepted for the root `hashBytes(b)`, and it
is still accepted after the digest bytes of that step are changed, length unchanged. -/
theorem unknown_tag_digest_change_undetected :
    Function.Injective (id : Bytes → Bytes) ∧
    CheckMkData id (some (hashBytes id [3])) (some [[0x2, 8, 9]]) [3] = .ok true ∧
    ([8, 10] : Bytes) ≠ [8, 9] ∧ ([8, 10] : Bytes).length = ([8, 9] : Bytes).length ∧
    CheckMkData id (some (hashBytes id [3])) (some [[0x2, 8, 10]]) [3] = .ok true :=
  ⟨Function.injective_id, by decide, by decide, by decide, by decide⟩

/-- C11, amended: let `CheckMkData(root, path, block)` return true and let no byte string
hashed by the original verification collide with a different byte string hashed by the
changed one. Then `CheckMkData` returns false after a change of the root, after a change of
the block, and after a change of the digest bytes of any one step whose tag is 0x0 or 0x1.
A step with another tag is skipped, so a change of its bytes goes unnoticed. -/
theorem tamper_detected_on_known_tags (H : Bytes → Bytes) (root : Option Bytes)
    (path : Option (List Bytes)) (b : Bytes)
    (hcheck : CheckMkData H root path b = .ok true) :
    (∀ root', elems root' ≠ elems root → CheckMkData H root' path b = .ok false) ∧
    (∀ b', b' ≠ b →
      (∀ u ∈ hashedByVerify H path b, ∀ v ∈ hashedByVerify H path b', H u = H v → u = v) →
      CheckMkData H root path b' = .ok false) ∧
    (∀ pre tag d d' post, elems path = pre ++ (tag :: d) :: post →
      knownTag (tag :: d) = true → d' ≠ d → d'.length = d.length →
      (∀ u ∈ hashedByVerify H path b,
        ∀ v ∈ hashedByVerify H (some (pre ++ (tag :: d') :: post)) b, H u = H v → u = v) →
      CheckMkData H root (some (pre ++ (tag :: d') :: post)) b = .ok false) := by
  simp only [CheckMkData, offline_eq_loop] at hcheck ⊢
  cases hloop : rootLoop H (elems path) (hashBytes H b) with
  | error e => rw [hloop] at hcheck; cases hcheck
  | ok r =>
    rw [hloop] at hcheck
    have hr : r = elems root := by simpa using hcheck
    refine ⟨?_, ?_, ?_⟩
    · intro root' hne
      simp only [Except.ok.injEq, decide_eq_false_iff_not]
      rw [hr]; exact fun h => hne h.symm
    · intro b' hb' hcoll
      have hH : hashBytes H b ≠ hashBytes H b' := by
        intro heq
        exact hb' (hcoll b (List.mem_cons_self _ _) b' (List.mem_cons_self _ _) heq).symm
      obtain ⟨r', hr'⟩ := rootLoop_ok_of_ok H (elems path) _ (hashBytes H b') r hloop
      have hdiff := rootLoop_diverges H (elems path) _ _ hH
        (fun u hu v hv => hcoll u (List.mem_cons_of_mem _ hu) v (List.mem_cons_of_mem _ hv))
        r r' hloop hr'
      rw [hr']
      simp only [Except.ok.injEq, decide_eq_false_iff_not]
      rw [← hr]; exact fun h => hdiff h.symm
    · intro pre tag d d' post hpath hk hd _ hcoll
      have hk' : tag = _LEFT_NODE ∨ tag = _RIGHT_NODE := by
        simpa [knownTag, _LEFT_NODE, _RIGHT_NODE] using hk
      rw [hpath] at hloop
      obtain ⟨r', hr', hne⟩ := digest_change_detected H pre post tag d d' _ r hk' hd hloop
        (fun u hu v hv => hcoll u
          (by rw [hashedByVerify, hpath]; exact List.mem_cons_of_mem _ hu) v
          (List.mem_cons_of_mem _ hv))
      simp only [elems, Option.getD_some] at hr' ⊢
      rw [hr']
      simp only [Except.ok.injEq, decide_eq_false_iff_not]
      exact fun h => hne (h.trans hr.symm)

theorem tamper_detected_on_known_tags_witness :
    CheckMkData toyHash (some [70]) (some [[0x0, 197]]) [3] = .ok false :=
  (tamper_detected_on_known_tags toyHash (some [70]) (some [[0x0, 196]]) [3]
    (by decide)).2.2 [] 0x0 [196] [197] [] (by decide) (by decide) (by decide) (by decide)
    (by decide)

/-! ## Order of the extracted path -/

theorem built_of_mem_nodes (H : Bytes → Bytes) (t : ProofTreeNode) (ht : Built H t) :
    ∀ u ∈ nodes t, Built H u := by
  induction ht with
  | leaf h =>
    intro u hu
    simp only [nodes, List.append_nil, List.mem_singleton] at hu
    rw [hu]; exact Built.leaf h
  | inner lh rh ll lr rl rr bl br ihl ihr =>
    intro u hu
    rw [nodes, List.mem_cons, List.mem_append] at hu
    rcases hu with heq | hl | hr
    · rw [heq]; exact Built.inner lh rh ll lr rl rr bl br
    · exact ihl u hl
    · exact ihr u hr

theorem leafPath_inner (h lh rh : Bytes) (ll lr rl rr : ProofTreeNode) (k : ℕ) :
    leafPath (.node h (.node lh ll lr) (.node rh rl rr)) k =
      if k < (leafHashes (.node lh ll lr)).length then
        leafPath (.node lh ll lr) k ++ [(0x1 : Byte) :: rh]
      else
        leafPath (.node rh rl rr) (k - (leafHashes (.node lh ll lr)).length) ++
          [(0x0 : Byte) :: lh] := by
  rw [leafPath]

theorem leafPath_leaf (h : Bytes) (k : ℕ) : leafPath (.node h .nil .nil) k = [] := by
  simp [leafPath]

theorem leafPath_ne_nil_of_built (H : Bytes → Bytes) (h : Bytes) (l r : ProofTreeNode)
    (ht : Built H (.node h l r)) (hleaf : (l.isNil && r.isNil) = false) (k : ℕ) :
    leafPath (.node h l r) k ≠ [] := by
  cases ht with
  | leaf => simp [ProofTreeNode.isNil] at hleaf
  | inner lh rh ll lr rl rr bl br =>
    rw [leafPath_inner]
    split <;> simp

/-- In a `Built` tree the first step of a leaf's path names the leaf's immediate sibling. -/
theorem leafPath_head_sibling (H : Bytes → Bytes) (t : ProofTreeNode) (ht : Built H t) :
    ∀ k, (leafPath t k).head? = leafSibling t k := by
  induction ht with
  | leaf h => intro k; simp [leafPath, leafSibling]
  | inner lh rh ll lr rl rr bl br ihl ihr =>
    intro k
    rw [leafPath_inner, leafSibling]
    by_cases hk : k < (leafHashes (.node lh ll lr)).length
    · rw [if_pos hk, if_pos hk]
      by_cases hleaf : (ll.isNil && lr.isNil) = true
      · rw [if_pos hleaf]
        have h1 : ll = .nil := by
          cases ll with
          | nil => rfl
          | node _ _ _ => simp [ProofTreeNode.isNil] at hleaf
        have h2 : lr = .nil := by
          cases lr with
          | nil => rfl
          | node _ _ _ => simp [ProofTreeNode.isNil] at hleaf
        subst h1 h2
        rw [leafPath_leaf]; rfl
      · rw [if_neg hleaf]
        have hne := leafPath_ne_nil_of_built H lh ll lr bl (by simpa using hleaf) k
        rw [List.head?_append_of_ne_nil _ hne]
        exact ihl k
    · rw [if_neg hk, if_neg hk]
      by_cases hleaf : (rl.isNil && rr.isNil) = true
      · rw [if_pos hleaf]
        have h1 : rl = .nil := by
          cases rl with
          | nil => rfl
          | node _ _ _ => simp [ProofTreeNode.isNil] at hleaf
        have h2 : rr = .nil := by
          cases rr with
          | nil => rfl
          | node _ _ _ => simp [ProofTreeNode.isNil] at hleaf
        subst h1 h2
        rw [leafPath_leaf]; rfl
      · rw [if_neg hleaf]
        have hne := leafPath_ne_nil_of_built H rh rl rr br (by simpa using hleaf)
          (k - (leafHashes (.node lh ll lr)).length)
        rw [List.head?_append_of_ne_nil _ hne]
        exact ihr _

theorem leafPath_length_depth (t : ProofTreeNode) :
    ∀ k, (leafPath t k).length = leafDepth t k := by
  induction t with
  | nil => intro k; simp [leafPath, leafDepth]
  | node h l r ihl ihr =>
    intro k
    cases l with
    | nil => simp [leafPath, leafDepth]
    | node lh ll lr =>
      cases r with
      | nil => simp [leafPath, leafDepth]
      | node rh rl rr =>
        rw [leafPath_inner, leafDepth]
        split
        · rw [List.length_append, List.length_singleton, ihl k]; omega
        · rw [List.length_append, List.length_singleton, ihr]; omega

/-- C6: extraction order and encoding.
Base: on a leaf the search hands back the path it was given and never adds a step, so
`FindProofPath` on a leaf returns the nil path; the leaf's own digest is not on the path.
Step: for a node `t` with children `l` and `r`, if `hashBytes(b)` is found in `l` with path
`lp`, then `FindProofPath` on `t` returns `lp` followed by the one final step
`0x1 :: r.Hash`; otherwise, if it is found in `r` with path `rp`, it returns `rp` followed
by the one final step `0x0 :: l.Hash`.
Hence, for every node `t` with children of a tree built by `GenMkRootAndProof` and every
block whose hash is a leaf digest below `t`, the returned path is the path of the found
leaf: its first step names the leaf's immediate sibling, its last step a child of `t`, and
it has one step per edge between `t` and the leaf, so `t` itself is excluded. -/
theorem findProofPath_appends_sibling (H : Bytes → Bytes) :
    (∀ h path data,
      findProofPath (.node h .nil .nil) path data = .ok (path, decide (h = data))) ∧
    (∀ h b, FindProofPath H (.node h .nil .nil) b = .ok none) ∧
    (∀ h lh rh ll lr rl rr b lp,
      findProofPath (.node lh ll lr) none (hashBytes H b) = .ok (lp, true) →
      FindProofPath H (.node lh ll lr) b = .ok lp ∧
      FindProofPath H (.node h (.node lh ll lr) (.node rh rl rr)) b =
        .ok (some (elems lp ++ [(0x1 : Byte) :: rh]))) ∧
    (∀ h lh rh ll lr rl rr b lp rp,
      findProofPath (.node lh ll lr) none (hashBytes H b) = .ok (lp, false) →
      findProofPath (.node rh rl rr) none (hashBytes H b) = .ok (rp, true) →
      FindProofPath H (.node rh rl rr) b = .ok rp ∧
      FindProofPath H (.node h (.node lh ll lr) (.node rh rl rr)) b =
        .ok (some (elems rp ++ [(0x0 : Byte) :: lh]))) ∧
    (∀ S h l r b, ProofTreeNode.node h l r ∈ nodes (GenMkRootAndProof H S).2 →
      (ProofTreeNode.node h l r).IsLeaf = .ok false →
      hashBytes H b ∈ leafHashes (.node h l r) →
      ∃ p k lh rh, FindProofPath H (.node h l r) b = .ok (some p) ∧
        (leafHashes (.node h l r))[k]? = some (hashBytes H b) ∧
        (∀ j, j < k → (leafHashes (.node h l r))[j]? ≠ some (hashBytes H b)) ∧
        p = leafPath (.node h l r) k ∧
        p.head? = leafSibling (.node h l r) k ∧
        l.getHash = .ok lh ∧ r.getHash = .ok rh ∧
        p.getLast? = some (if k < (leafHashes l).length then (0x1 : Byte) :: rh
          else (0x0 : Byte) :: lh) ∧
        p.length = leafDepth (.node h l r) k) := by
  refine ⟨?_, ?_, ?_, ?_, ?_⟩
  · intro h path data
    rw [findProofPath_node]
    simp [ProofTreeNode.isNil]
  · intro h b
    dsimp only [FindProofPath]
    rw [findProofPath_node]
    simp [ProofTreeNode.isNil]
  · intro h lh rh ll lr rl rr b lp hl
    exact (findProofPath_inner_step H h lh rh ll lr rl rr b).1 lp hl
  · intro h lh rh ll lr rl rr b lp rp hl hr
    exact (findProofPath_inner_step H h lh rh ll lr rl rr b).2 lp rp hl hr
  · intro S h l r b hnode hleaf hmem
    have hS : S ≠ [] := by
      rintro rfl
      simp [gen_nil, nodes] at hnode
    obtain ⟨h0, l0, r0, hgen, hbuilt⟩ := gen_built H S hS
    rw [hgen] at hnode
    have hb := built_of_mem_nodes H _ hbuilt _ hnode
    obtain ⟨p0, k, hfind, hp, hk, hmin⟩ := find_leftmost H (hashBytes H b) _ hb hmem
    obtain ⟨p1, hf1, hin, -⟩ := find_built H (hashBytes H b) _ hb
    rw [hfind] at hf1
    have hp01 : p0 = p1 := by
      have := Except.ok.inj hf1
      exact congrArg Prod.fst this
    obtain ⟨q, step, hq⟩ := (hin hmem).2.2 hleaf
    rw [← hp01] at hq
    subst hq
    simp only [elems, Option.getD_some] at hp
    cases hb with
    | leaf => simp [ProofTreeNode.IsLeaf, ProofTreeNode.isNil] at hleaf
    | inner lh rh ll lr rl rr bl br =>
      refine ⟨q ++ [step], k, lh, rh, by simp [FindProofPath, hfind], hk, hmin, hp, ?_,
        rfl, rfl, ?_, ?_⟩
      · rw [hp]
        exact leafPath_head_sibling H _
          (Built.inner lh rh ll lr rl rr bl br) k
      · rw [hp, leafPath_inner]
        split <;> simp
      · rw [hp]
        exact leafPath_length_depth _ k

theorem findProofPath_appends_sibling_witness :
    FindProofPath toyHash
      (.node [9] (.node [8] (.node (toyHash [1]) .nil .nil) (.node [7] .nil .nil))
        (.node [6] .nil .nil)) [1] = .ok (some ([[0x1, 7]] ++ [[0x1, 6]])) ∧
    ∃ p k lh rh, FindProofPath toyHash
        (.node [70] (.node [196] (.node [101] .nil .nil) (.node [102] .nil .nil))
          (.node [103] .nil .nil)) [2] = .ok (some p) ∧
      (leafHashes (.node [70] (.node [196] (.node [101] .nil .nil) (.node [102] .nil .nil))
          (.node [103] .nil .nil)))[k]? = some (hashBytes toyHash [2]) ∧
      (∀ j, j < k →
        (leafHashes (.node [70] (.node [196] (.node [101] .nil .nil) (.node [102] .nil .nil))
          (.node [103] .nil .nil)))[j]? ≠ some (hashBytes toyHash [2])) ∧
      p = leafPath (.node [70] (.node [196] (.node [101] .nil .nil) (.node [102] .nil .nil))
          (.node [103] .nil .nil)) k ∧
      p.head? = leafSibling (.node [70]
          (.node [196] (.node [101] .nil .nil) (.node [102] .nil .nil))
          (.node [103] .nil .nil)) k ∧
      (ProofTreeNode.node [196] (.node [101] .nil .nil) (.node [102] .nil .nil)).getHash =
        .ok lh ∧
      (ProofTreeNode.node [103] .nil .nil).getHash = .ok rh ∧
      p.getLast? = some (if k < (leafHashes
          (.node [196] (.node [101] .nil .nil) (.node [102] .nil .nil))).length
        then (0x1 : Byte) :: rh else (0x0 : Byte) :: lh) ∧
      p.length = leafDepth (.node [70]
          (.node [196] (.node [101] .nil .nil) (.node [102] .nil .nil))
          (.node [103] .nil .nil)) k :=
  ⟨((findProofPath_appends_sibling toyHash).2.2.1 [9] [8] [6]
      (.node (toyHash [1]) .nil .nil) (.node [7] .nil .nil) .nil .nil [1]
      (some [[0x1, 7]]) (by decide)).2,
   (findProofPath_appends_sibling toyHash).2.2.2.2 [[1], [2], [3]] [70]
      (.node [196] (.node [101] .nil .nil) (.node [102] .nil .nil))
      (.node [103] .nil .nil) [2]
      (by rw [gen_toy_three]; decide) (by decide) (by decide)⟩

end Merkletree
